import Mathlib

/-!
Verification of the resumable tree-crawling engine of the Justia regulations
scraper (`regscraper.py`) and its companion validator (`validate_regs.py`).

The crawl engine is embedded as a fuel-indexed function over a finite map from
URLs to structured pages; the depth guard of the source bounds the recursion
depth at 20, so a constant fuel suffices and is proved sufficient below.
External HTML parsing is abstracted into the `Page` type: a fetched page either
exposes an ordered child-link list (branch) or an extractable content body
(leaf), exactly as the source classifies pages by the presence of the
`codes-listing` element.
-/

namespace RegScraper

/-- A child link extracted from a navigation region: display text and href. -/
structure Link where
  text : String
  href : String
deriving DecidableEq, Repr

/-- A fetched page, as classified by `scrape_branch`: a branch exposes an
ordered list of child links (the `codes-listing` element); a leaf exposes an
extractable content body. -/
inductive Page where
  | branch (links : List Link)
  | leaf (content : String)
deriving DecidableEq, Repr

/-- A lexicographic path: the sibling index chosen at each depth. -/
abbrev LexPath := List Nat

/-- The persisted unit for one leaf, restricted to the fields the claims are
about (`url`, `lex_path`, content body). -/
structure Record where
  url : String
  lex_path : LexPath
  content : String
deriving DecidableEq, Repr

/-- The shared mutable state of one crawl run: the visited set (kept as a list
in visit order), the append-only record output, the failure log (URLs written
to `failed_<state>.txt`), the log of every `fetch_with_retry` call issued, and
the two kinds of warnings printed by `scrape_branch`. -/
structure CrawlState where
  visited : List String
  records : List Record
  failures : List String
  fetchLog : List String
  depthWarnings : List String
  malformedWarnings : List String
deriving DecidableEq, Repr

/-- The empty initial state of a run. -/
def initState : CrawlState := ⟨[], [], [], [], [], []⟩

/-- Python list comparison on integer lists: elementwise, with a strict prefix
sorting before any of its extensions. -/
def lexLt : List Nat → List Nat → Bool
  | _, [] => false
  | [], _ :: _ => true
  | a :: as, b :: bs => if a < b then true else if a = b then lexLt as bs else false

/-- Bool test that `pat` occurs as a contiguous substring of `s`, both given
as character lists (Python `pat in s`); written on `List Char` because the
character-level operations of the kernel reduce there. -/
def containsSub (s pat : List Char) : Bool := decide (pat <:+: s)

/-- Character-list form of Python `str.upper` (ASCII-faithful). -/
def upperChars (s : String) : List Char := s.data.map Char.toUpper

/-- Embedding of `is_reserved_or_repealed` (regscraper.py:131): uppercase the
text and test for the markers "(REPEALED)", "(RESERVED)" or bare "RESERVED". -/
def is_reserved_or_repealed (text : String) : Bool :=
  let u := upperChars text
  containsSub u "(REPEALED)".data || containsSub u "(RESERVED)".data ||
    containsSub u "RESERVED".data

/-- Python `href.replace("://", "")`: remove every occurrence of `"://"`,
scanning left to right without overlap. -/
def stripSchemeSeps : List Char → List Char
  | ':' :: '/' :: '/' :: rest => stripSchemeSeps rest
  | c :: rest => c :: stripSchemeSeps rest
  | [] => []

/-- The malformed-href test of `scrape_branch` (regscraper.py:534): the href
ends with "//" or still contains "//" after removing every "://". -/
def isMalformedHref (href : String) : Bool :=
  decide (['/', '/'] <:+ href.data) || containsSub (stripSchemeSeps href.data) ['/', '/']

/-- Python truthiness of the `continue_from` argument: `None` and the empty
list are both falsy. -/
def cursorActive : Option LexPath → Bool
  | some (_ :: _) => true
  | _ => false

/-- The list held by the cursor (`[]` when the cursor is `None`). -/
def contList : Option LexPath → LexPath := fun c => c.getD []

/-- The resume start index computed at the head of the child loop of
`scrape_branch` (regscraper.py:515-520): when the cursor is active and the
current path is a prefix of it, children below the cursor index at this depth
are skipped. -/
def branchStartIdx (pa : LexPath) (cont : Option LexPath) : Nat :=
  if cursorActive cont = true ∧ pa = (contList cont).take pa.length then
    if pa.length < (contList cont).length then (contList cont).getD pa.length 0 else 0
  else 0

/-- Embedding of `process_regulation_leaf` (regscraper.py:253): fetch the leaf
URL (a second fetch, independent of the classification fetch), and either
append one record tagged with the lex path, or append the URL to the failure
log when the fetch fails or the page lacks the expected content structure. -/
def process_regulation_leaf (pages : List (String × Page)) (url : String)
    (pa : LexPath) (s : CrawlState) : CrawlState :=
  let s := { s with fetchLog := s.fetchLog ++ [url] }
  match pages.lookup url with
  | some (Page.leaf content) => { s with records := s.records ++ [⟨url, pa, content⟩] }
  | _ => { s with failures := s.failures ++ [url] }

/-- The child loop of `scrape_branch` (regscraper.py:522-583), parametrized by
the recursive call `recurse`. Per child, in source order: skip indices below
the resume start index; skip RESERVED/REPEALED links; skip malformed hrefs
with a warning; break out of the loop with a depth warning once the current
path has length at least 20; otherwise recurse on the child with path
`pa ++ [i]`, deactivating the cursor for children past the start index. -/
def scrapeChildren (recurse : String → LexPath → Option LexPath → CrawlState → CrawlState)
    (site url : String) (pa : LexPath) (cont : Option LexPath) (startIdx : Nat) :
    List Link → Nat → CrawlState → CrawlState
  | [], _, s => s
  | l :: rest, i, s =>
    if i < startIdx then
      scrapeChildren recurse site url pa cont startIdx rest (i + 1) s
    else if is_reserved_or_repealed l.text = true then
      scrapeChildren recurse site url pa cont startIdx rest (i + 1) s
    else if isMalformedHref l.href = true then
      scrapeChildren recurse site url pa cont startIdx rest (i + 1)
        { s with malformedWarnings := s.malformedWarnings ++ [site ++ l.href] }
    else if 20 ≤ pa.length then
      { s with depthWarnings := s.depthWarnings ++ [url] }
    else
      let newCont := if cursorActive cont = true ∧ startIdx < i then none else cont
      let s := recurse (site ++ l.href) (pa ++ [i]) newCont s
      scrapeChildren recurse site url pa cont startIdx rest (i + 1) s

/-- Embedding of `scrape_branch` (regscraper.py:479), indexed by fuel to make
the recursion structural; the depth guard makes fuel `21 - pa.length` exact
(proved below). Behaviour per call: return if the URL is already in the
visited set, else add it; fetch; on failure append to the failure log; on a
branch page run the child loop; on a leaf page skip when the path equals the
active cursor, else process the leaf. -/
def scrape_branch (pages : List (String × Page)) (site : String) :
    Nat → String → LexPath → Option LexPath → CrawlState → CrawlState
  | 0, _, _, _, s => s
  | fuel + 1, url, pa, cont, s =>
    if url ∈ s.visited then s
    else
      let s := { s with visited := s.visited ++ [url], fetchLog := s.fetchLog ++ [url] }
      match pages.lookup url with
      | none => { s with failures := s.failures ++ [url] }
      | some (Page.branch links) =>
        scrapeChildren (scrape_branch pages site fuel) site url pa cont
          (branchStartIdx pa cont) links 0 s
      | some (Page.leaf _) =>
        if cursorActive cont = true ∧ pa = contList cont then s
        else process_regulation_leaf pages url pa s

/-- Base URL of the regulations site (regscraper.py:43). -/
def REGULATIONS_BASE_URL : String := "https://regulations.justia.com"

/-- The initial URL for a jurisdiction (regscraper.py:688). -/
def stateInitUrl (stateName : String) : String :=
  REGULATIONS_BASE_URL ++ "/states/" ++ stateName ++ "/"

/-- A top-level work item: href, initial path `[i]`, and the cursor handed to
this branch (the full cursor for the resume branch, `None` otherwise). -/
abbrev Job := String × LexPath × Option LexPath

/-- Job construction loop of `collect_regulations_for_state`
(regscraper.py:755-763): enumerate the filtered top-level links, skip indices
below the resume branch index, and attach the cursor only to the resume
branch. -/
def mkJobs (cont : Option LexPath) (startB : Nat) : List Link → Nat → List Job
  | [], _ => []
  | l :: rest, i =>
    if i < startB then mkJobs cont startB rest (i + 1)
    else (l.href, [i],
          if i = startB ∧ cursorActive cont = true then cont else none)
         :: mkJobs cont startB rest (i + 1)

/-- Sequential execution of the queued jobs by the worker pool
(regscraper.py:616-665): each job runs `scrape_branch` to completion over the
shared state. -/
def runJobs (pages : List (String × Page)) (site : String) (fuel : Nat) :
    List Job → CrawlState → CrawlState
  | [], s => s
  | (href, pa, cont) :: rest, s =>
    runJobs pages site fuel rest (scrape_branch pages site fuel (site ++ href) pa cont s)

/-- Embedding of the crawl core of `collect_regulations_for_state`
(regscraper.py:668-796), with the resume cursor already computed: fetch the
initial page; if it exposes no listing, stop; otherwise filter out
RESERVED/REPEALED top-level links, enqueue a job per remaining link starting
at the resume branch index, and run the jobs. -/
def collectRunF (pages : List (String × Page)) (stateName : String) (fuel : Nat)
    (cont : Option LexPath) : CrawlState :=
  let s := { initState with fetchLog := [stateInitUrl stateName] }
  match pages.lookup (stateInitUrl stateName) with
  | none => s
  | some (Page.leaf _) => s
  | some (Page.branch links) =>
    let links' := links.filter (fun l => !is_reserved_or_repealed l.text)
    let startB := if cursorActive cont = true then (contList cont).headD 0 else 0
    runJobs pages REGULATIONS_BASE_URL fuel (mkJobs cont startB links' 0) s

/-- The crawl with the fuel that the depth guard makes sufficient. -/
def collect_regulations_for_state (pages : List (String × Page)) (stateName : String)
    (cont : Option LexPath) : CrawlState :=
  collectRunF pages stateName 20 cont

/-! ## Resume controller (`get_last_lex_path` and the output-sink mode) -/

/-- One parsed line of a prior persisted output file: only the `lex_path`
field matters for resumption, and `dict.get` yields `None` when absent. -/
structure PrevLine where
  lex_path : Option LexPath
deriving DecidableEq, Repr

/-- Embedding of `get_last_lex_path` (regscraper.py:452): `None` when the file
does not exist (`none`) or is empty (`some []`), else the `lex_path` field of
the last line. -/
def get_last_lex_path : Option (List PrevLine) → Option LexPath
  | none => none
  | some ls => ls.getLast?.bind (fun l => l.lex_path)

/-- The resume setup of `collect_regulations_for_state` (regscraper.py:696):
returns the cursor and whether the output sink is opened in append mode
(`true` for `"a"`, `false` for `"w"`). -/
def resumeSetup (resume : Bool) (file : Option (List PrevLine)) :
    Option LexPath × Bool :=
  if resume then
    match get_last_lex_path file with
    | some lp => (some lp, true)
    | none => (none, false)
  else (none, false)

/-! ## Verification pass (`validate_regs.py`) -/

/-- Append a trailing slash when missing, as the validator normalizes every
URL it constructs (validate_regs.py:76-77, 121-122). -/
def ensureSlash (u : String) : String := if ['/'] <:+ u.data then u else u ++ "/"

/-- A top-level section as collected by `get_top_level_sections`: display
name, normalized URL, and the index `i` of the link in the raw link list. -/
structure SectionInfo where
  name : String
  url : String
  idx : Nat
deriving DecidableEq, Repr

/-- Enumeration loop of `get_top_level_sections` (validate_regs.py:67-83):
skip RESERVED/REPEALED and malformed links but keep the raw enumerate index
for the surviving ones. -/
def sectionLoop : List Link → Nat → List SectionInfo
  | [], _ => []
  | l :: rest, i =>
    if is_reserved_or_repealed l.text = true then sectionLoop rest (i + 1)
    else if isMalformedHref l.href = true then sectionLoop rest (i + 1)
    else ⟨l.text, ensureSlash (REGULATIONS_BASE_URL ++ l.href), i⟩ :: sectionLoop rest (i + 1)

/-- Embedding of `get_top_level_sections` (validate_regs.py:45): fetch the
base URL and enumerate the links of its navigation region. -/
def get_top_level_sections (pages : List (String × Page)) (baseUrl : String) :
    List SectionInfo :=
  match pages.lookup baseUrl with
  | some (Page.branch links) => sectionLoop links 0
  | _ => []

/-- Child loop of the validator walk (validate_regs.py:112-125), parametrized
by the recursive walk: skip RESERVED/REPEALED and malformed links, and walk
the others at the normalized child URL. -/
def walkChildren (recurse : String → LexPath → List String) (pa : LexPath) :
    List Link → Nat → List String
  | [], _ => []
  | l :: rest, i =>
    (if is_reserved_or_repealed l.text = true then []
     else if isMalformedHref l.href = true then []
     else recurse (ensureSlash (REGULATIONS_BASE_URL ++ l.href)) (pa ++ [i]))
    ++ walkChildren recurse pa rest (i + 1)

/-- The inner `_walk` of `walk_section` (validate_regs.py:97-128), with fuel
`max_depth - depth`: return nothing at depth `max_depth` or on fetch failure;
recurse through the children of a branch page; record the URL of a leaf. -/
def walkF (pages : List (String × Page)) : Nat → String → LexPath → List String
  | 0, _, _ => []
  | fuel + 1, url, pa =>
    match pages.lookup url with
    | none => []
    | some (Page.branch links) => walkChildren (walkF pages fuel) pa links 0
    | some (Page.leaf _) => [url]

/-- Embedding of `walk_section` (validate_regs.py:88): walk one top-level
section with the default `max_depth = 20`, collecting every leaf URL. -/
def walk_section (pages : List (String × Page)) (sectionUrl : String)
    (sectionPath : LexPath) : List String :=
  walkF pages 20 sectionUrl sectionPath

/-- Code-point comparison of two strings, the order Python `sorted` uses. -/
def strLe (a b : String) : Bool :=
  charListLe a.data b.data
where
  charListLe : List Char → List Char → Bool
    | [], _ => true
    | _ :: _, [] => false
    | a :: as, b :: bs => if a < b then true else if a = b then charListLe as bs else false

/-- Sorting used for the diff output (Python `sorted` over strings compares by
code points). -/
def strInsert (x : String) : List String → List String
  | [] => [x]
  | y :: ys => if strLe x y then x :: y :: ys else y :: strInsert x ys

/-- Insertion sort on strings, standing in for Python `sorted`. -/
def strSort : List String → List String
  | [] => []
  | x :: xs => strInsert x (strSort xs)

/-- Embedding of `validate_section_completeness` (validate_regs.py:134):
missing = expected minus actual, extra = actual minus expected, each sorted;
the section is complete iff nothing is missing. -/
def validate_section_completeness (expected actual : List String) :
    Bool × List String × List String :=
  let missing := strSort (expected.filter (fun u => !actual.contains u))
  let extra := strSort (actual.filter (fun u => !expected.contains u))
  (missing.isEmpty, missing, extra)

/-- The record loop of `validate_section_order` (validate_regs.py:156-165):
walk the records with the previous lex path and the running index, appending
an issue whenever the previous path is strictly greater than the current. -/
def orderLoop : List LexPath → Option LexPath → Nat → List (Nat × LexPath × LexPath)
  | [], _, _ => []
  | cur :: rest, prev, i =>
    (match prev with
     | some p => if lexLt cur p then [(i, p, cur)] else []
     | none => []) ++ orderLoop rest (some cur) (i + 1)

/-- Embedding of `validate_section_order` (validate_regs.py:148): the issue
list with its emptiness verdict; an issue is modelled as the triple of the
record index and the two offending lex paths. -/
def validate_section_order (recs : List LexPath) : Bool × List (Nat × LexPath × LexPath) :=
  let issues := orderLoop recs none 0
  (issues.isEmpty, issues)

/-- Grouping of persisted records by top-level section (validate_regs.py:
354-359): a record belongs to section `idx` when its lex path is non-empty
and starts with `idx`. -/
def recordsBySection (records : List Record) (idx : Nat) : List Record :=
  records.filter (fun r => r.lex_path ≠ [] ∧ r.lex_path.headD 0 = idx)

/-- The completeness check that `validate_state` performs for one section
(validate_regs.py:387-400): walk the live section for the expected URLs and
diff them against the URLs of the records grouped into that section. -/
def validateSectionOfState (pages : List (String × Page)) (records : List Record)
    (sec : SectionInfo) : Bool × List String × List String :=
  let expected := walk_section pages sec.url [sec.idx]
  let actual := (recordsBySection records sec.idx).map (fun r => r.url)
  validate_section_completeness expected actual

/-! ## Derived notions used to state the theorems -/

/-- The exclusion predicate as the specification words it: the link text
contains "repealed" or "reserved" as a case-insensitive substring, in
parenthesized or bare form (so a bare occurrence already matches). Modelled
from the spec for comparison with `is_reserved_or_repealed`. -/
def specExcluded (text : String) : Bool :=
  containsSub (upperChars text) "REPEALED".data || containsSub (upperChars text) "RESERVED".data

/-- `u` is the target of some clean (non-excluded, non-malformed) child link
of some branch page of the site: the only way, besides being the initial URL
or a top-level section target, that the traversal ever fetches `u`. -/
def cleanChildTarget (pages : List (String × Page)) (site : String) (u : String) : Prop :=
  ∃ v links l, (v, Page.branch links) ∈ pages ∧ l ∈ links ∧
    is_reserved_or_repealed l.text = false ∧ isMalformedHref l.href = false ∧
    u = site ++ l.href

/-- `u` is the target of a top-level section link that survives the
RESERVED/REPEALED filter of `collect_regulations_for_state` (note: top-level
links undergo no malformed-href check before being enqueued). -/
def topLevelTarget (pages : List (String × Page)) (stateName : String) (u : String) : Prop :=
  ∃ links l, pages.lookup (stateInitUrl stateName) = some (Page.branch links) ∧
    l ∈ links ∧ is_reserved_or_repealed l.text = false ∧
    u = REGULATIONS_BASE_URL ++ l.href

/-- Whether the child loop of `scrape_branch`, entered at a path of depth at
least 20, reaches a child that triggers the depth warning: some child at
index at least the resume start index that is neither excluded nor
malformed. -/
def depthTrigger (startIdx : Nat) : List Link → Nat → Bool
  | [], _ => false
  | l :: rest, i =>
    if i < startIdx then depthTrigger startIdx rest (i + 1)
    else if is_reserved_or_repealed l.text = true then depthTrigger startIdx rest (i + 1)
    else if isMalformedHref l.href = true then depthTrigger startIdx rest (i + 1)
    else true

/-- The weight of a URL for the fetch-count bound: a URL whose page is a leaf
is fetched at most twice within its single visit (classification fetch plus
the content-extraction fetch of `process_regulation_leaf`); any other URL at
most once. -/
def fetchWeight (pages : List (String × Page)) (u : String) : Nat :=
  match pages.lookup u with
  | some (Page.leaf _) => 2
  | _ => 1

/-- One crawl state extends another: every log field of the second begins
with the corresponding field of the first (all state mutations of the crawler
are appends). -/
def StateExt (s t : CrawlState) : Prop :=
  s.visited <+: t.visited ∧ s.records <+: t.records ∧ s.failures <+: t.failures ∧
  s.fetchLog <+: t.fetchLog ∧ s.depthWarnings <+: t.depthWarnings ∧
  s.malformedWarnings <+: t.malformedWarnings

/-! ## Static hierarchies as trees

For the claims that assume a static, deterministic hierarchy (C1), the site
is modelled as a finite tree whose branch nodes carry their ordered child
links; `treePages` lays the tree out as the URL-to-page map the crawler
consumes. -/

/-- A static site hierarchy: a leaf with its content, or a branch with its
ordered list of child links and subtrees. -/
inductive Tree where
  | leaf (content : String)
  | branch (children : List (Link × Tree))
deriving Repr

/-- The links exposed by a branch node's navigation region. -/
def branchLinks (cs : List (Link × Tree)) : List Link := cs.map (fun c => c.1)

mutual

/-- The page map generated by a tree rooted at the given URL: each node
appears at its URL, a child living at `site ++ href`. -/
def treePages (site : String) : Tree → String → List (String × Page)
  | Tree.leaf content, u => [(u, Page.leaf content)]
  | Tree.branch cs, u => (u, Page.branch (branchLinks cs)) :: treePagesList site cs

/-- The page maps of a list of children, concatenated in sibling order. -/
def treePagesList (site : String) : List (Link × Tree) → List (String × Page)
  | [] => []
  | c :: rest => treePages site c.2 (site ++ c.1.href) ++ treePagesList site rest

end

/-- The child loop of the structural emission function, mirroring
`scrapeChildren` child for child. -/
def emitsChildrenF (recurse : Tree → String → LexPath → Option LexPath → List Record)
    (site : String) (pa : LexPath) (cont : Option LexPath) (startIdx : Nat) :
    List (Link × Tree) → Nat → List Record
  | [], _ => []
  | c :: rest, i =>
    if i < startIdx then emitsChildrenF recurse site pa cont startIdx rest (i + 1)
    else if is_reserved_or_repealed c.1.text = true then
      emitsChildrenF recurse site pa cont startIdx rest (i + 1)
    else if isMalformedHref c.1.href = true then
      emitsChildrenF recurse site pa cont startIdx rest (i + 1)
    else if 20 ≤ pa.length then []
    else
      recurse c.2 (site ++ c.1.href) (pa ++ [i])
          (if cursorActive cont = true ∧ startIdx < i then none else cont)
        ++ emitsChildrenF recurse site pa cont startIdx rest (i + 1)

/-- The records a clean (failure-free, alias-free) traversal of a subtree
emits, as a pure function of the subtree: the reference behaviour that
`scrape_branch` is proved to follow on tree-generated page maps. -/
def emitsF (site : String) : Nat → Tree → String → LexPath → Option LexPath → List Record
  | 0, _, _, _, _ => []
  | _ + 1, Tree.leaf content, u, pa, cont =>
    if cursorActive cont = true ∧ pa = contList cont then [] else [⟨u, pa, content⟩]
  | fuel + 1, Tree.branch cs, _, pa, cont =>
    emitsChildrenF (emitsF site fuel) site pa cont (branchStartIdx pa cont) cs 0

/-- The per-job emission of the top level, mirroring `mkJobs` and `runJobs`
over the exclusion-filtered top-level children. -/
def jobsEmitsF (site : String) (fuel : Nat) (cont : Option LexPath) (startB : Nat) :
    List (Link × Tree) → Nat → List Record
  | [], _ => []
  | c :: rest, i =>
    if i < startB then jobsEmitsF site fuel cont startB rest (i + 1)
    else
      emitsF site fuel c.2 (site ++ c.1.href) [i]
          (if i = startB ∧ cursorActive cont = true then cont else none)
        ++ jobsEmitsF site fuel cont startB rest (i + 1)

/-- The records a whole collect run emits on a tree-generated site, as a pure
function of the tree. -/
def collectEmitsF (fuel : Nat) (t : Tree) (cont : Option LexPath) : List Record :=
  match t with
  | Tree.leaf _ => []
  | Tree.branch cs =>
    jobsEmitsF REGULATIONS_BASE_URL fuel cont
      (if cursorActive cont = true then (contList cont).headD 0 else 0)
      (cs.filter (fun c => !is_reserved_or_repealed c.1.text)) 0

/-- Navigating a tree along a list of raw child indices reaches a leaf,
passing only through children that survive the exclusion and malformed-href
checks: the shape a resume cursor recovered from persisted output always
has. -/
def leadsToLeaf : Tree → List Nat → Prop
  | Tree.leaf _, [] => True
  | Tree.branch _, [] => False
  | Tree.leaf _, _ :: _ => False
  | Tree.branch cs, k :: rest =>
    ∃ c, cs.get? k = some c ∧ is_reserved_or_repealed c.1.text = false ∧
      isMalformedHref c.1.href = false ∧ leadsToLeaf c.2 rest

/-- The top-level counterpart of `leadsToLeaf`: the head of the cursor indexes
into the exclusion-filtered top-level listing (the indexing
`collect_regulations_for_state` itself uses when enqueuing jobs), and the rest
of the cursor leads to a leaf below that section. -/
def leadsToLeafTop : Tree → List Nat → Prop
  | Tree.leaf _, _ => False
  | Tree.branch _, [] => False
  | Tree.branch cs, k :: rest =>
    ∃ c, (cs.filter (fun c_ => !is_reserved_or_repealed c_.1.text)).get? k = some c ∧
      leadsToLeaf c.2 rest

/-! ## Concrete site fixtures used by counterexamples and witnesses -/

/-- Fixture: a single department with one regulation leaf. -/
def pagesOneLeaf : List (String × Page) :=
  [(stateInitUrl "montana", Page.branch [⟨"Dept A", "/a/"⟩]),
   (REGULATIONS_BASE_URL ++ "/a/", Page.leaf "body")]

/-- Fixture: a chapter whose link text says "Repealed" in bare, unparenthesized
form, holding one leaf. -/
def pagesBareRepealed : List (String × Page) :=
  [(stateInitUrl "montana", Page.branch [⟨"Top", "/t/"⟩]),
   (REGULATIONS_BASE_URL ++ "/t/", Page.branch [⟨"Chapter 7 Repealed", "/t/b/"⟩]),
   (REGULATIONS_BASE_URL ++ "/t/b/", Page.leaf "x")]

/-- URL of the node at depth `k` of the deep-chain fixture. -/
def chainUrl (k : Nat) : String := REGULATIONS_BASE_URL ++ "/c" ++ toString k ++ "/"

/-- Fixture: a chain of single-child branches; the node entered at path
length 20 is a branch whose only child link is marked repealed. -/
def pagesDeepChain : List (String × Page) :=
  (stateInitUrl "montana", Page.branch [⟨"c", "/c1/"⟩]) ::
  ((List.range 19).map
    (fun k => (chainUrl (k + 1), Page.branch [⟨"c", "/c" ++ toString (k + 2) ++ "/"⟩])))
  ++ [(chainUrl 20, Page.branch [⟨"Subchapter (Repealed)", "/x/"⟩])]

/-- Fixture: a repealed top-level department followed by two live ones. -/
def pagesShifted : List (String × Page) :=
  [(stateInitUrl "montana",
    Page.branch [⟨"Dept X (Repealed)", "/r/"⟩, ⟨"Dept A", "/a/"⟩, ⟨"Dept B", "/b/"⟩]),
   (REGULATIONS_BASE_URL ++ "/a/", Page.leaf "aa"),
   (REGULATIONS_BASE_URL ++ "/b/", Page.leaf "bb")]

/-- Fixture: a top-level section link whose href has doubled path
separators. -/
def pagesMalformedTop : List (String × Page) :=
  [(stateInitUrl "montana", Page.branch [⟨"Dept A", "/a//"⟩]),
   (REGULATIONS_BASE_URL ++ "/a//", Page.leaf "x")]

/-- Fixture: a department link whose target page cannot be fetched, producing
a failure-log entry. -/
def pagesFailure : List (String × Page) :=
  [(stateInitUrl "montana", Page.branch [⟨"Dept A", "/a/"⟩])]

/-- Fixture: a static tree of three departments with two, two and one leaves,
used to exercise resumption from lex path `[1, 0]`. -/
def treeResume : Tree :=
  Tree.branch
    [(⟨"S0", "/0/"⟩, Tree.branch
        [(⟨"a", "/0/0/"⟩, Tree.leaf "l00"), (⟨"b", "/0/1/"⟩, Tree.leaf "l01")]),
     (⟨"S1", "/1/"⟩, Tree.branch
        [(⟨"a", "/1/0/"⟩, Tree.leaf "l10"), (⟨"b", "/1/1/"⟩, Tree.leaf "l11")]),
     (⟨"S2", "/2/"⟩, Tree.branch [(⟨"a", "/2/0/"⟩, Tree.leaf "l20")])]

/-! # Theorems

First the generic lemmas about the small helper functions, then the claim
theorems. -/

theorem charListLe_total : ∀ x y : List Char,
    strLe.charListLe x y = true ∨ strLe.charListLe y x = true
  | [], _ => Or.inl rfl
  | _ :: _, [] => Or.inr rfl
  | x :: xs, y :: ys => by
    rcases lt_trichotomy x y with h | h | h
    · exact Or.inl (by simp [strLe.charListLe, h])
    · subst h
      rcases charListLe_total xs ys with h | h
      · exact Or.inl (by simp [strLe.charListLe, h])
      · exact Or.inr (by simp [strLe.charListLe, h])
    · exact Or.inr (by simp [strLe.charListLe, h])

theorem charListLe_trans : ∀ x y z : List Char,
    strLe.charListLe x y = true → strLe.charListLe y z = true →
    strLe.charListLe x z = true
  | [], _, _, _, _ => rfl
  | x :: xs, [], _, h, _ => by simp [strLe.charListLe] at h
  | x :: xs, y :: ys, [], _, h => by simp [strLe.charListLe] at h
  | x :: xs, y :: ys, z :: zs, h1, h2 => by
    simp only [strLe.charListLe] at h1 h2 ⊢
    split at h1
    · rename_i hxy
      split at h2
      · rename_i hyz
        simp [lt_trans hxy hyz]
      · split at h2
        · rename_i hyz
          subst hyz
          simp [hxy]
        · exact absurd h2 (by simp)
    · split at h1
      · rename_i hxy
        subst hxy
        split at h2
        · rename_i hyz
          simp [hyz]
        · split at h2
          · rename_i hyz
            subst hyz
            simp [charListLe_trans xs ys zs h1 h2]
          · exact absurd h2 (by simp)
      · exact absurd h1 (by simp)

theorem strLe_total (a b : String) : strLe a b = true ∨ strLe b a = true :=
  charListLe_total a.data b.data

theorem strLe_trans {a b c : String} (h1 : strLe a b = true) (h2 : strLe b c = true) :
    strLe a c = true :=
  charListLe_trans a.data b.data c.data h1 h2

theorem mem_strInsert (x a : String) : ∀ l : List String,
    (a ∈ strInsert x l ↔ a = x ∨ a ∈ l)
  | [] => by simp [strInsert]
  | y :: ys => by
    simp only [strInsert]
    split
    · simp
    · simp only [List.mem_cons, mem_strInsert x a ys]
      tauto

theorem pairwise_strInsert (x : String) : ∀ l : List String,
    l.Pairwise (fun a b => strLe a b = true) →
    (strInsert x l).Pairwise (fun a b => strLe a b = true)
  | [], _ => by simp [strInsert]
  | y :: ys, h => by
    simp only [strInsert]
    rw [List.pairwise_cons] at h
    split
    · rename_i hxy
      refine List.Pairwise.cons ?_ (List.Pairwise.cons h.1 h.2)
      intro b hb
      rcases List.mem_cons.mp hb with rfl | hb
      · exact hxy
      · exact strLe_trans hxy (h.1 b hb)
    · rename_i hxy
      have hyx : strLe y x = true := by
        rcases strLe_total x y with h' | h'
        · exact absurd h' hxy
        · exact h'
      refine List.Pairwise.cons ?_ (pairwise_strInsert x ys h.2)
      intro b hb
      rcases (mem_strInsert x b ys).mp hb with rfl | hb
      · exact hyx
      · exact h.1 b hb

theorem mem_strSort (a : String) : ∀ l : List String, (a ∈ strSort l ↔ a ∈ l)
  | [] => by simp [strSort]
  | x :: xs => by
    simp only [strSort]
    rw [mem_strInsert, mem_strSort a xs, List.mem_cons]

theorem pairwise_strSort : ∀ l : List String,
    (strSort l).Pairwise (fun a b => strLe a b = true)
  | [] => by simp [strSort]
  | x :: xs => pairwise_strInsert x (strSort xs) (pairwise_strSort xs)

/-- C8: for every expected URL set `E` and actual URL set `A`,
`validate_section_completeness` returns `missing = E \ A` and
`extra = A \ E`, each in sorted (code-point) order, and judges the section
complete iff `missing` is empty — so extra URLs alone never make a section
incomplete; membership in `E` that is covered by `A` is all that matters. -/
theorem completeness_diff_postcondition (E A : List String) :
    ((validate_section_completeness E A).2.1.Pairwise (fun a b => strLe a b = true) ∧
     (validate_section_completeness E A).2.2.Pairwise (fun a b => strLe a b = true)) ∧
    (∀ u, u ∈ (validate_section_completeness E A).2.1 ↔ u ∈ E ∧ u ∉ A) ∧
    (∀ u, u ∈ (validate_section_completeness E A).2.2 ↔ u ∈ A ∧ u ∉ E) ∧
    ((validate_section_completeness E A).1 = true ↔ ∀ u ∈ E, u ∈ A) := by
  refine ⟨⟨pairwise_strSort _, pairwise_strSort _⟩, ?_, ?_, ?_⟩
  · intro u
    simp [validate_section_completeness, mem_strSort, List.mem_filter]
  · intro u
    simp [validate_section_completeness, mem_strSort, List.mem_filter]
  · simp only [validate_section_completeness, List.isEmpty_iff]
    constructor
    · intro h u hu
      by_contra hnot
      have : u ∈ strSort (E.filter (fun v => !A.contains v)) := by
        rw [mem_strSort, List.mem_filter]
        simp [hu, hnot]
      rw [h] at this
      exact absurd this (List.not_mem_nil u)
    · intro h
      rw [List.eq_nil_iff_forall_not_mem]
      intro u hu
      rw [mem_strSort, List.mem_filter] at hu
      have := h u hu.1
      simp [this] at hu

theorem mem_orderLoop : ∀ (ps : List LexPath) (prev : Option LexPath) (i j : Nat)
    (p c : LexPath),
    ((j, p, c) ∈ orderLoop ps prev i ↔
      ∃ k, k < ps.length ∧ j = i + k ∧
        (if k = 0 then prev else some (ps.getD (k - 1) [])) = some p ∧
        ps.getD k [] = c ∧ lexLt c p = true)
  | [], prev, i, j, p, c => by simp [orderLoop]
  | cur :: rest, prev, i, j, p, c => by
    have hgetD : ∀ k : Nat,
        (if k = 0 then some cur else some (rest.getD (k - 1) [])) =
          some ((cur :: rest).getD k []) := by
      intro k
      rcases k with _ | k'
      · simp
      · simp
    have hIH := mem_orderLoop rest (some cur) (i + 1) j p c
    simp only [hgetD] at hIH
    have hshift : (j, p, c) ∈ orderLoop rest (some cur) (i + 1) ↔
        ∃ k, 0 < k ∧ k < (cur :: rest).length ∧ j = i + k ∧
          (cur :: rest).getD (k - 1) [] = p ∧ (cur :: rest).getD k [] = c ∧
          lexLt c p = true := by
      rw [hIH]
      constructor
      · rintro ⟨k, hk, hj, hp, hc, hlt⟩
        refine ⟨k + 1, by omega, by simpa using hk, by omega, by simpa using hp, ?_, hlt⟩
        simpa using hc
      · rintro ⟨k, hk0, hk, hj, hp, hc, hlt⟩
        rcases k with _ | k'
        · omega
        · refine ⟨k', by simpa using hk, by omega, ?_, by simpa using hc, hlt⟩
          simpa using hp
    rcases prev with _ | p0
    · show (j, p, c) ∈ [] ++ orderLoop rest (some cur) (i + 1) ↔ _
      rw [List.nil_append, hshift]
      constructor
      · rintro ⟨k, hk0, hk, hj, hp, hc, hlt⟩
        exact ⟨k, hk, hj, by rw [if_neg (by omega)]; exact congrArg some hp, hc, hlt⟩
      · rintro ⟨k, hk, hj, hp, hc, hlt⟩
        rcases k with _ | k'
        · simp at hp
        · rw [if_neg (Nat.succ_ne_zero k')] at hp
          exact ⟨k' + 1, by omega, hk, hj, by simpa using hp, hc, hlt⟩
    · show (j, p, c) ∈
        (if lexLt cur p0 = true then [(i, p0, cur)] else [])
          ++ orderLoop rest (some cur) (i + 1) ↔ _
      rw [List.mem_append, hshift]
      constructor
      · rintro (hhead | ⟨k, hk0, hk, hj, hp, hc, hlt⟩)
        · split at hhead
          · rename_i hl
            have heq : (j, p, c) = (i, p0, cur) := List.mem_singleton.mp hhead
            simp only [Prod.mk.injEq] at heq
            obtain ⟨rfl, rfl, rfl⟩ := heq
            exact ⟨0, by simp, by omega, by simp, by simp, hl⟩
          · simp at hhead
        · exact ⟨k, hk, hj, by rw [if_neg (by omega)]; exact congrArg some hp, hc, hlt⟩
      · rintro ⟨k, hk, hj, hp, hc, hlt⟩
        rcases k with _ | k'
        · left
          simp only [List.getD_cons_zero] at hc
          simp at hp
          subst hp
          subst hc
          simp [hlt, hj]
        · right
          rw [if_neg (Nat.succ_ne_zero k')] at hp
          exact ⟨k' + 1, by omega, hk, hj, by simpa using hp, hc, hlt⟩

/-- C7: `validate_section_order` reports an issue exactly at each position
`j > 0` where record `j`'s lex path is strictly below record `j-1`'s under
the element-wise shorter-prefix-first order, reports the section ordered iff
no such position exists, and on `[[0,0],[0,1],[0,0]]` reports exactly the one
issue between the records at indices 1 and 2. -/
theorem order_validator_exact (ps : List LexPath) :
    (∀ j p c, ((j, p, c) ∈ (validate_section_order ps).2 ↔
       0 < j ∧ j < ps.length ∧ p = ps.getD (j - 1) [] ∧ c = ps.getD j [] ∧
       lexLt c p = true)) ∧
    ((validate_section_order ps).1 = true ↔
       ∀ j, 0 < j → j < ps.length →
         lexLt (ps.getD j []) (ps.getD (j - 1) []) = false) ∧
    validate_section_order [[0, 0], [0, 1], [0, 0]] = (false, [(2, [0, 1], [0, 0])]) := by
  have hmem : ∀ j p c, ((j, p, c) ∈ (validate_section_order ps).2 ↔
      0 < j ∧ j < ps.length ∧ p = ps.getD (j - 1) [] ∧ c = ps.getD j [] ∧
      lexLt c p = true) := by
    intro j p c
    rw [show (validate_section_order ps).2 = orderLoop ps none 0 from rfl,
        mem_orderLoop ps none 0 j p c]
    constructor
    · rintro ⟨k, hk, hj, hp, hc, hlt⟩
      rcases k with _ | k'
      · simp at hp
      · simp only [if_neg (Nat.succ_ne_zero k'), Option.some.injEq] at hp
        subst hj
        exact ⟨by omega, by simpa using hk, by simp [hp.symm], by simp [hc.symm], hlt⟩
    · rintro ⟨hj0, hjlen, hp, hc, hlt⟩
      refine ⟨j, hjlen, by omega, ?_, hc.symm, hlt⟩
      rw [if_neg (by omega)]
      simp [hp]
  refine ⟨hmem, ?_, by decide⟩
  have hfst : (validate_section_order ps).1 = (validate_section_order ps).2.isEmpty := rfl
  rw [hfst, List.isEmpty_iff]
  constructor
  · intro h j hj0 hjlen
    by_contra hlt
    have : (j, ps.getD (j - 1) [], ps.getD j []) ∈ (validate_section_order ps).2 := by
      rw [hmem]
      exact ⟨hj0, hjlen, rfl, rfl, by simpa using hlt⟩
    rw [h] at this
    exact absurd this (List.not_mem_nil _)
  · intro h
    rw [List.eq_nil_iff_forall_not_mem]
    rintro ⟨j, p, c⟩ hm
    rw [hmem] at hm
    obtain ⟨hj0, hjlen, rfl, rfl, hlt⟩ := hm
    rw [h j hj0 hjlen] at hlt
    exact Bool.false_ne_true hlt

/-- C9: when resume is requested, a missing or empty prior output file yields
cursor `none` and a truncated sink (a full run); otherwise the cursor is the
`lex_path` field parsed from the last line of the prior output and the sink
is opened in append mode. -/
theorem resume_degradation :
    (∀ file, file = none ∨ file = some [] → resumeSetup true file = (none, false)) ∧
    (∀ (ls : List PrevLine) (l : PrevLine) (lp : LexPath),
       ls.getLast? = some l → l.lex_path = some lp →
       resumeSetup true (some ls) = (some lp, true)) := by
  constructor
  · rintro file (rfl | rfl) <;> rfl
  · intro ls l lp hlast hlp
    simp [resumeSetup, get_last_lex_path, hlast, hlp]

/-- Witness for C9 at concrete inputs. -/
theorem resume_degradation_witness :
    resumeSetup true none = (none, false) ∧
    resumeSetup true (some [⟨some [2, 1, 3]⟩]) = (some [2, 1, 3], true) :=
  ⟨resume_degradation.1 none (Or.inl rfl),
   resume_degradation.2 [⟨some [2, 1, 3]⟩] ⟨some [2, 1, 3]⟩ [2, 1, 3] rfl rfl⟩

/-- C2 counterexample: the link text "Chapter 7 Repealed" contains "repealed"
as a bare case-insensitive substring, so the claim says the node is skipped;
but `is_reserved_or_repealed` does not match the bare form, and the crawl
both fetches the node and writes it to the output. -/
theorem exclusion_counterexample :
    specExcluded "Chapter 7 Repealed" = true ∧
    is_reserved_or_repealed "Chapter 7 Repealed" = false ∧
    (REGULATIONS_BASE_URL ++ "/t/b/") ∈
      (collect_regulations_for_state pagesBareRepealed "montana" none).fetchLog ∧
    ∃ r ∈ (collect_regulations_for_state pagesBareRepealed "montana" none).records,
      r.url = REGULATIONS_BASE_URL ++ "/t/b/" := by decide

/-- C4 counterexample: a URL classified as a leaf is fetched twice in one
run — once by the classification fetch of `scrape_branch` and once by the
content fetch of `process_regulation_leaf` — so "each URL is fetched at most
once" fails, even though the URL is visited only once. -/
theorem duplicate_fetch_counterexample :
    (collect_regulations_for_state pagesOneLeaf "montana" none).fetchLog.count
      (REGULATIONS_BASE_URL ++ "/a/") = 2 ∧
    (collect_regulations_for_state pagesOneLeaf "montana" none).visited.count
      (REGULATIONS_BASE_URL ++ "/a/") = 1 := by decide

/-- C5 counterexample: a branch entered at path length 20 whose only child is
excluded is traversed (it enters the visited set) but logs no depth warning,
because the warning is only printed when a child survives the skip checks. -/
theorem depth_warning_counterexample :
    pagesDeepChain.lookup (chainUrl 20) =
      some (Page.branch [⟨"Subchapter (Repealed)", "/x/"⟩]) ∧
    chainUrl 20 ∈ (collect_regulations_for_state pagesDeepChain "montana" none).visited ∧
    (collect_regulations_for_state pagesDeepChain "montana" none).depthWarnings = [] ∧
    (REGULATIONS_BASE_URL ++ "/x/") ∉
      (collect_regulations_for_state pagesDeepChain "montana" none).fetchLog := by decide

/-- C10 counterexample: a top-level section link with a malformed href is
enqueued as a worker job without any malformed-href check and its URL is
dereferenced, contradicting "never fetched at every level including the
top-level section links". -/
theorem malformed_toplevel_counterexample :
    isMalformedHref "/a//" = true ∧
    (REGULATIONS_BASE_URL ++ "/a//") ∈
      (collect_regulations_for_state pagesMalformedTop "montana" none).fetchLog := by decide

/-- C3: on a static three-department site whose first department is marked
repealed, the crawl completes with no failures and captures every live leaf,
yet the verifier assigns the live departments the raw indices 1 and 2 while
the scraper stored them under the post-filter indices 0 and 1, so the
verification pass reports the first live section incomplete (its leaf missing
and the other department's leaf extra) instead of complete. -/
theorem scraper_verifier_disagreement :
    (collect_regulations_for_state pagesShifted "montana" none).failures = [] ∧
    (collect_regulations_for_state pagesShifted "montana" none).records.map
        (fun r => (r.url, r.lex_path)) =
      [(REGULATIONS_BASE_URL ++ "/a/", [0]), (REGULATIONS_BASE_URL ++ "/b/", [1])] ∧
    (get_top_level_sections pagesShifted (stateInitUrl "montana")).map
        (fun s => (s.name, s.url, s.idx)) =
      [("Dept A", REGULATIONS_BASE_URL ++ "/a/", 1),
       ("Dept B", REGULATIONS_BASE_URL ++ "/b/", 2)] ∧
    validateSectionOfState pagesShifted
        (collect_regulations_for_state pagesShifted "montana" none).records
        ⟨"Dept A", REGULATIONS_BASE_URL ++ "/a/", 1⟩ =
      (false, [REGULATIONS_BASE_URL ++ "/a/"], [REGULATIONS_BASE_URL ++ "/b/"]) := by decide

/-! ## Generic crawl-state invariants -/

theorem listPre_refl {α : Type} (l : List α) : l <+: l := ⟨[], List.append_nil l⟩

theorem listPre_trans {α : Type} {l m n : List α} (h1 : l <+: m) (h2 : m <+: n) :
    l <+: n := by
  obtain ⟨t1, rfl⟩ := h1
  obtain ⟨t2, rfl⟩ := h2
  exact ⟨t1 ++ t2, (List.append_assoc l t1 t2).symm⟩

theorem listPre_append {α : Type} (l t : List α) : l <+: l ++ t := ⟨t, rfl⟩

theorem listPre_mem {α : Type} {l m : List α} {a : α} (h : l <+: m) (ha : a ∈ l) :
    a ∈ m := by
  obtain ⟨t, rfl⟩ := h
  exact List.mem_append_left t ha

theorem mem_of_lookup_eq_some {α β : Type} [BEq α] [LawfulBEq α] :
    ∀ {ps : List (α × β)} {a : α} {b : β}, ps.lookup a = some b → (a, b) ∈ ps
  | [], a, b, h => by simp [List.lookup] at h
  | (k, v) :: rest, a, b, h => by
    by_cases hak : a == k
    · simp only [List.lookup, hak] at h
      have hk : a = k := by simpa using hak
      subst hk
      obtain rfl : v = b := by simpa using h
      exact List.mem_cons_self _ _
    · have hak' : (a == k) = false := by simpa using hak
      simp only [List.lookup, hak'] at h
      exact List.mem_cons_of_mem _ (mem_of_lookup_eq_some h)

theorem lookup_of_mem_nodup {α β : Type} [BEq α] [LawfulBEq α] :
    ∀ {ps : List (α × β)} {a : α} {b : β},
      (ps.map Prod.fst).Nodup → (a, b) ∈ ps → ps.lookup a = some b
  | [], a, b, _, h => by simp at h
  | (k, v) :: rest, a, b, hnd, h => by
    rw [List.map_cons, List.nodup_cons] at hnd
    rcases List.mem_cons.mp h with heq | hmem
    · injection heq with h1 h2
      subst h1
      subst h2
      simp [List.lookup]
    · have hka : (a == k) = false := by
        rw [beq_eq_false_iff_ne]
        rintro rfl
        exact hnd.1 (List.mem_map.mpr ⟨(a, b), hmem, rfl⟩)
      simp only [List.lookup, hka]
      exact lookup_of_mem_nodup hnd.2 hmem

theorem stateExt_refl (s : CrawlState) : StateExt s s :=
  ⟨listPre_refl _, listPre_refl _, listPre_refl _, listPre_refl _, listPre_refl _,
   listPre_refl _⟩

theorem stateExt_trans {s t u : CrawlState} (h1 : StateExt s t) (h2 : StateExt t u) :
    StateExt s u :=
  ⟨listPre_trans h1.1 h2.1, listPre_trans h1.2.1 h2.2.1,
   listPre_trans h1.2.2.1 h2.2.2.1, listPre_trans h1.2.2.2.1 h2.2.2.2.1,
   listPre_trans h1.2.2.2.2.1 h2.2.2.2.2.1, listPre_trans h1.2.2.2.2.2 h2.2.2.2.2.2⟩

theorem processLeaf_ext (pages : List (String × Page)) (url : String) (pa : LexPath)
    (s : CrawlState) : StateExt s (process_regulation_leaf pages url pa s) := by
  unfold process_regulation_leaf
  rcases pages.lookup url with _ | pg
  · exact ⟨listPre_refl _, listPre_refl _, listPre_append _ _, listPre_append _ _,
      listPre_refl _, listPre_refl _⟩
  · rcases pg with links | content
    · exact ⟨listPre_refl _, listPre_refl _, listPre_append _ _, listPre_append _ _,
        listPre_refl _, listPre_refl _⟩
    · exact ⟨listPre_refl _, listPre_append _ _, listPre_refl _, listPre_append _ _,
        listPre_refl _, listPre_refl _⟩

theorem scrapeChildren_ext
    (recurse : String → LexPath → Option LexPath → CrawlState → CrawlState)
    (hrec : ∀ u p κ s, StateExt s (recurse u p κ s))
    (site url : String) (pa : LexPath) (cont : Option LexPath) (startIdx : Nat) :
    ∀ (links : List Link) (i : Nat) (s : CrawlState),
      StateExt s (scrapeChildren recurse site url pa cont startIdx links i s)
  | [], i, s => stateExt_refl s
  | l :: rest, i, s => by
    rw [scrapeChildren]
    split
    · exact scrapeChildren_ext recurse hrec site url pa cont startIdx rest (i + 1) s
    · split
      · exact scrapeChildren_ext recurse hrec site url pa cont startIdx rest (i + 1) s
      · split
        · refine stateExt_trans ?_
            (scrapeChildren_ext recurse hrec site url pa cont startIdx rest (i + 1) _)
          exact ⟨listPre_refl _, listPre_refl _, listPre_refl _, listPre_refl _,
            listPre_refl _, listPre_append _ _⟩
        · split
          · exact ⟨listPre_refl _, listPre_refl _, listPre_refl _, listPre_refl _,
              listPre_append _ _, listPre_refl _⟩
          · exact stateExt_trans (hrec _ _ _ _)
              (scrapeChildren_ext recurse hrec site url pa cont startIdx rest (i + 1) _)

theorem scrape_branch_ext (pages : List (String × Page)) (site : String) :
    ∀ (fuel : Nat) (url : String) (pa : LexPath) (cont : Option LexPath)
      (s : CrawlState), StateExt s (scrape_branch pages site fuel url pa cont s)
  | 0, url, pa, cont, s => stateExt_refl s
  | fuel + 1, url, pa, cont, s => by
    rw [scrape_branch]
    by_cases hv : url ∈ s.visited
    · rw [if_pos hv]
      exact stateExt_refl s
    · rw [if_neg hv]
      have hstep : StateExt s
          { s with visited := s.visited ++ [url], fetchLog := s.fetchLog ++ [url] } :=
        ⟨listPre_append _ _, listPre_refl _, listPre_refl _, listPre_append _ _,
         listPre_refl _, listPre_refl _⟩
      rcases hlk : pages.lookup url with _ | pg
      · simp only [hlk]
        exact stateExt_trans hstep
          ⟨listPre_refl _, listPre_refl _, listPre_append _ _, listPre_refl _,
           listPre_refl _, listPre_refl _⟩
      · rcases pg with links | content
        · simp only [hlk]
          exact stateExt_trans hstep
            (scrapeChildren_ext _ (fun u p κ t => scrape_branch_ext pages site fuel u p κ t)
              site url pa cont _ links 0 _)
        · simp only [hlk]
          split
          · exact hstep
          · exact stateExt_trans hstep (processLeaf_ext pages url pa _)

theorem runJobs_ext (pages : List (String × Page)) (site : String) (fuel : Nat) :
    ∀ (jobs : List Job) (s : CrawlState), StateExt s (runJobs pages site fuel jobs s)
  | [], s => stateExt_refl s
  | (href, pa, cont) :: rest, s =>
    stateExt_trans (scrape_branch_ext pages site fuel (site ++ href) pa cont s)
      (runJobs_ext pages site fuel rest _)

theorem scrapeChildren_visited_nodup
    (recurse : String → LexPath → Option LexPath → CrawlState → CrawlState)
    (hrec : ∀ u p κ t, t.visited.Nodup → (recurse u p κ t).visited.Nodup)
    (site url : String) (pa : LexPath) (cont : Option LexPath) (startIdx : Nat) :
    ∀ (links : List Link) (i : Nat) (s : CrawlState), s.visited.Nodup →
      (scrapeChildren recurse site url pa cont startIdx links i s).visited.Nodup
  | [], _, _, h => h
  | l :: rest, i, s, h => by
    rw [scrapeChildren]
    split
    · exact scrapeChildren_visited_nodup recurse hrec site url pa cont startIdx rest (i + 1) s h
    · split
      · exact scrapeChildren_visited_nodup recurse hrec site url pa cont startIdx rest (i + 1) s h
      · split
        · exact scrapeChildren_visited_nodup recurse hrec site url pa cont startIdx rest (i + 1) _ h
        · split
          · exact h
          · exact scrapeChildren_visited_nodup recurse hrec site url pa cont startIdx rest (i + 1) _
              (hrec _ _ _ _ h)

theorem scrape_branch_visited_nodup (pages : List (String × Page)) (site : String) :
    ∀ (fuel : Nat) (url : String) (pa : LexPath) (cont : Option LexPath) (s : CrawlState),
      s.visited.Nodup → (scrape_branch pages site fuel url pa cont s).visited.Nodup
  | 0, _, _, _, _, h => h
  | fuel + 1, url, pa, cont, s, h => by
    rw [scrape_branch]
    by_cases hv : url ∈ s.visited
    · rw [if_pos hv]
      exact h
    · rw [if_neg hv]
      have h1 : (s.visited ++ [url]).Nodup := by
        rw [List.nodup_append]
        refine ⟨h, List.nodup_singleton url, ?_⟩
        intro a ha hb
        rw [List.mem_singleton] at hb
        exact absurd (hb ▸ ha) hv
      rcases hlk : pages.lookup url with _ | pg
      · simpa [hlk] using h1
      · rcases pg with links | content
        · simp only [hlk]
          exact scrapeChildren_visited_nodup _
            (fun u p κ t => scrape_branch_visited_nodup pages site fuel u p κ t)
            site url pa cont _ links 0 _ h1
        · simp only [hlk]
          split
          · exact h1
          · unfold process_regulation_leaf
            rcases pages.lookup url with _ | pg2
            · exact h1
            · rcases pg2 with _ | _
              · exact h1
              · exact h1

theorem runJobs_visited_nodup (pages : List (String × Page)) (site : String) (fuel : Nat) :
    ∀ (jobs : List Job) (s : CrawlState), s.visited.Nodup →
      (runJobs pages site fuel jobs s).visited.Nodup
  | [], _, h => h
  | (href, pa, cont) :: rest, s, h =>
    runJobs_visited_nodup pages site fuel rest _
      (scrape_branch_visited_nodup pages site fuel (site ++ href) pa cont s h)

theorem collect_visited_nodup (pages : List (String × Page)) (stateName : String)
    (fuel : Nat) (cont : Option LexPath) :
    (collectRunF pages stateName fuel cont).visited.Nodup := by
  unfold collectRunF
  rcases pages.lookup (stateInitUrl stateName) with _ | pg
  · exact List.nodup_nil
  · rcases pg with links | content
    · exact runJobs_visited_nodup pages REGULATIONS_BASE_URL fuel _ _ List.nodup_nil
    · exact List.nodup_nil

/-! ## Fuel indifference: the depth guard bounds the recursion, so any fuel of
at least `21 - pa.length` computes the same result (termination). -/

theorem scrapeChildren_congr
    (r1 r2 : String → LexPath → Option LexPath → CrawlState → CrawlState)
    (site url : String) (pa : LexPath) (cont : Option LexPath) (startIdx : Nat)
    (h : ∀ u i κ s, pa.length < 20 → r1 u (pa ++ [i]) κ s = r2 u (pa ++ [i]) κ s) :
    ∀ (links : List Link) (i : Nat) (s : CrawlState),
      scrapeChildren r1 site url pa cont startIdx links i s =
        scrapeChildren r2 site url pa cont startIdx links i s
  | [], _, _ => rfl
  | l :: rest, i, s => by
    rw [scrapeChildren, scrapeChildren]
    split
    · exact scrapeChildren_congr r1 r2 site url pa cont startIdx h rest (i + 1) s
    · split
      · exact scrapeChildren_congr r1 r2 site url pa cont startIdx h rest (i + 1) s
      · split
        · exact scrapeChildren_congr r1 r2 site url pa cont startIdx h rest (i + 1) _
        · split
          · rfl
          · rename_i hnd
            show scrapeChildren r1 site url pa cont startIdx rest (i + 1)
                (r1 (site ++ l.href) (pa ++ [i])
                  (if cursorActive cont = true ∧ startIdx < i then none else cont) s) =
              scrapeChildren r2 site url pa cont startIdx rest (i + 1)
                (r2 (site ++ l.href) (pa ++ [i])
                  (if cursorActive cont = true ∧ startIdx < i then none else cont) s)
            rw [h _ i _ s (by omega)]
            exact scrapeChildren_congr r1 r2 site url pa cont startIdx h rest (i + 1) _

theorem scrape_branch_fuel_congr (pages : List (String × Page)) (site : String) :
    ∀ (f g : Nat) (url : String) (pa : LexPath) (cont : Option LexPath) (s : CrawlState),
      pa.length ≤ 20 → 21 - pa.length ≤ f → 21 - pa.length ≤ g →
      scrape_branch pages site f url pa cont s = scrape_branch pages site g url pa cont s
  | 0, g, url, pa, cont, s, hlen, hf, hg => by omega
  | f + 1, 0, url, pa, cont, s, hlen, hf, hg => by omega
  | f + 1, g + 1, url, pa, cont, s, hlen, hf, hg => by
    rw [scrape_branch, scrape_branch]
    by_cases hv : url ∈ s.visited
    · rw [if_pos hv, if_pos hv]
    · rw [if_neg hv, if_neg hv]
      rcases hlk : pages.lookup url with _ | pg
      · simp only [hlk]
      · rcases pg with links | content
        · simp only [hlk]
          exact scrapeChildren_congr _ _ site url pa cont _
            (fun u i κ t hlt =>
              scrape_branch_fuel_congr pages site f g u (pa ++ [i]) κ t
                (by simp; omega) (by simp; omega) (by simp; omega)) links 0 _
        · simp only [hlk]

theorem mkJobs_path (cont : Option LexPath) (startB : Nat) :
    ∀ (links : List Link) (i : Nat) (job : Job), job ∈ mkJobs cont startB links i →
      ∃ j, job.2.1 = [j]
  | [], _, _, h => by simp [mkJobs] at h
  | l :: rest, i, job, h => by
    rw [mkJobs] at h
    split at h
    · exact mkJobs_path cont startB rest (i + 1) job h
    · rcases List.mem_cons.mp h with rfl | h'
      · exact ⟨i, rfl⟩
      · exact mkJobs_path cont startB rest (i + 1) job h'

theorem runJobs_fuel_congr (pages : List (String × Page)) (site : String) (f g : Nat)
    (hf : 20 ≤ f) (hg : 20 ≤ g) :
    ∀ (jobs : List Job), (∀ job ∈ jobs, ∃ j, job.2.1 = [j]) →
      ∀ s : CrawlState, runJobs pages site f jobs s = runJobs pages site g jobs s
  | [], _, s => rfl
  | (href, pa, cont) :: rest, hjobs, s => by
    rw [runJobs, runJobs]
    obtain ⟨j, hj⟩ := hjobs _ (List.mem_cons_self _ _)
    simp only at hj
    subst hj
    rw [scrape_branch_fuel_congr pages site f g (site ++ href) [j] cont s (by simp)
      (by simp; omega) (by simp; omega)]
    exact runJobs_fuel_congr pages site f g hf hg rest
      (fun job hjob => hjobs job (List.mem_cons_of_mem _ hjob)) _

theorem collect_fuel_indep (pages : List (String × Page)) (stateName : String)
    (cont : Option LexPath) (f : Nat) (hf : 20 ≤ f) :
    collectRunF pages stateName f cont =
      collect_regulations_for_state pages stateName cont := by
  unfold collect_regulations_for_state collectRunF
  rcases pages.lookup (stateInitUrl stateName) with _ | pg
  · rfl
  · rcases pg with links | content
    · exact runJobs_fuel_congr pages REGULATIONS_BASE_URL f 20 hf (by omega) _
        (mkJobs_path _ _ _ _) _
    · rfl

/-! ## Fetch-count bound: each URL passes the visited guard at most once, and
each visit fetches the URL at most `fetchWeight` times. -/

theorem fetchWeight_le_two (pages : List (String × Page)) (u : String) :
    fetchWeight pages u ≤ 2 := by
  unfold fetchWeight
  split
  · omega
  · omega

theorem fetchWeight_pos (pages : List (String × Page)) (u : String) :
    1 ≤ fetchWeight pages u := by
  unfold fetchWeight
  split
  · omega
  · omega

theorem scrapeChildren_count (pages : List (String × Page)) (u : String)
    (recurse : String → LexPath → Option LexPath → CrawlState → CrawlState)
    (hrec : ∀ u2 p κ t,
      (recurse u2 p κ t).fetchLog.count u +
        fetchWeight pages u * (if u ∈ t.visited then 1 else 0) ≤
      t.fetchLog.count u +
        fetchWeight pages u * (if u ∈ (recurse u2 p κ t).visited then 1 else 0))
    (hext : ∀ u2 p κ t, StateExt t (recurse u2 p κ t))
    (site url : String) (pa : LexPath) (cont : Option LexPath) (startIdx : Nat) :
    ∀ (links : List Link) (i : Nat) (s : CrawlState),
      (scrapeChildren recurse site url pa cont startIdx links i s).fetchLog.count u +
        fetchWeight pages u * (if u ∈ s.visited then 1 else 0) ≤
      s.fetchLog.count u +
        fetchWeight pages u *
          (if u ∈ (scrapeChildren recurse site url pa cont startIdx links i s).visited
           then 1 else 0)
  | [], _, s => le_refl _
  | l :: rest, i, s => by
    rw [scrapeChildren]
    split
    · exact scrapeChildren_count pages u recurse hrec hext site url pa cont startIdx rest (i + 1) s
    · split
      · exact scrapeChildren_count pages u recurse hrec hext site url pa cont startIdx rest (i + 1) s
      · split
        · exact scrapeChildren_count pages u recurse hrec hext site url pa cont startIdx rest (i + 1) _
        · split
          · exact le_refl _
          · show (scrapeChildren recurse site url pa cont startIdx rest (i + 1)
                (recurse (site ++ l.href) (pa ++ [i])
                  (if cursorActive cont = true ∧ startIdx < i then none else cont)
                  s)).fetchLog.count u +
                fetchWeight pages u * (if u ∈ s.visited then 1 else 0) ≤
              s.fetchLog.count u + fetchWeight pages u *
                (if u ∈ (scrapeChildren recurse site url pa cont startIdx rest (i + 1)
                    (recurse (site ++ l.href) (pa ++ [i])
                      (if cursorActive cont = true ∧ startIdx < i then none else cont)
                      s)).visited then 1 else 0)
            have h1 := hrec (site ++ l.href) (pa ++ [i])
              (if cursorActive cont = true ∧ startIdx < i then none else cont) s
            have h2 := scrapeChildren_count pages u recurse hrec hext site url pa cont startIdx
              rest (i + 1) (recurse (site ++ l.href) (pa ++ [i])
                (if cursorActive cont = true ∧ startIdx < i then none else cont) s)
            omega

theorem scrape_branch_count (pages : List (String × Page)) (site : String) (u : String) :
    ∀ (fuel : Nat) (url : String) (pa : LexPath) (cont : Option LexPath) (s : CrawlState),
      (scrape_branch pages site fuel url pa cont s).fetchLog.count u +
        fetchWeight pages u * (if u ∈ s.visited then 1 else 0) ≤
      s.fetchLog.count u +
        fetchWeight pages u *
          (if u ∈ (scrape_branch pages site fuel url pa cont s).visited then 1 else 0)
  | 0, _, _, _, s => le_refl _
  | fuel + 1, url, pa, cont, s => by
    rw [scrape_branch]
    by_cases hv : url ∈ s.visited
    · rw [if_pos hv]
    · rw [if_neg hv]
      have hw2 := fetchWeight_le_two pages u
      have hw1 := fetchWeight_pos pages u
      by_cases huu : u = url
      · subst huu
        have hcount1 : (s.fetchLog ++ [u]).count u = s.fetchLog.count u + 1 := by
          simp
        rcases hlk : pages.lookup u with _ | pg
        · simp only [hlk]
          have : u ∈ s.visited ++ [u] := by simp
          simp only [if_neg hv, if_pos this, hcount1]
          have : fetchWeight pages u = 1 := by unfold fetchWeight; rw [hlk]
          omega
        · rcases pg with links | content
          · simp only [hlk]
            have hwu : fetchWeight pages u = 1 := by unfold fetchWeight; rw [hlk]
            have hloop := scrapeChildren_count pages u
              (scrape_branch pages site fuel)
              (fun u2 p κ t => scrape_branch_count pages site u fuel u2 p κ t)
              (fun u2 p κ t => scrape_branch_ext pages site fuel u2 p κ t)
              site u pa cont (branchStartIdx pa cont) links 0
              { s with visited := s.visited ++ [u], fetchLog := s.fetchLog ++ [u] }
            have hmem1 : u ∈ s.visited ++ [u] := by simp
            simp only [hcount1, if_pos hmem1] at hloop
            have hmono : u ∈ (scrapeChildren (scrape_branch pages site fuel) site u pa cont
                (branchStartIdx pa cont) links 0
                { s with visited := s.visited ++ [u], fetchLog := s.fetchLog ++ [u] }).visited :=
              listPre_mem (scrapeChildren_ext _
                (fun u2 p κ t => scrape_branch_ext pages site fuel u2 p κ t)
                site u pa cont _ links 0 _).1 hmem1
            simp only [if_neg hv, if_pos hmono]
            simp only [if_pos hmono] at hloop
            omega
          · simp only [hlk]
            have hwu : fetchWeight pages u = 2 := by unfold fetchWeight; rw [hlk]
            split
            · have hmem1 : u ∈ s.visited ++ [u] := by simp
              simp only [if_neg hv, if_pos hmem1, hcount1]
              omega
            · unfold process_regulation_leaf
              simp only [hlk]
              have hmem1 : u ∈ s.visited ++ [u] := by simp
              simp only [if_neg hv, if_pos hmem1]
              have : ((s.fetchLog ++ [u]) ++ [u]).count u = s.fetchLog.count u + 2 := by
                simp
              simp only [this]
              omega
      · have hne : (u ∈ s.visited ++ [url]) ↔ u ∈ s.visited := by
          simp [huu]
        have h0 : List.count u [url] = 0 :=
          List.count_eq_zero.mpr (by simp [huu])
        have hcount1 : (s.fetchLog ++ [url]).count u = s.fetchLog.count u := by
          rw [List.count_append, h0, Nat.add_zero]
        have hcount2 : ((s.fetchLog ++ [url]) ++ [url]).count u = s.fetchLog.count u := by
          rw [List.count_append, h0, Nat.add_zero, hcount1]
        rcases hlk : pages.lookup url with _ | pg
        · simp only [hlk]
          simp only [hcount1, hne]
          exact le_refl _
        · rcases pg with links | content
          · simp only [hlk]
            have hloop := scrapeChildren_count pages u
              (scrape_branch pages site fuel)
              (fun u2 p κ t => scrape_branch_count pages site u fuel u2 p κ t)
              (fun u2 p κ t => scrape_branch_ext pages site fuel u2 p κ t)
              site url pa cont (branchStartIdx pa cont) links 0
              { s with visited := s.visited ++ [url], fetchLog := s.fetchLog ++ [url] }
            simp only [hcount1, hne] at hloop
            exact hloop
          · simp only [hlk]
            split
            · simp only [hcount1, hne]
              exact le_refl _
            · unfold process_regulation_leaf
              simp only [hlk, hcount2, hne]
              exact le_refl _

theorem runJobs_count (pages : List (String × Page)) (site : String) (u : String)
    (fuel : Nat) : ∀ (jobs : List Job) (s : CrawlState),
      (runJobs pages site fuel jobs s).fetchLog.count u +
        fetchWeight pages u * (if u ∈ s.visited then 1 else 0) ≤
      s.fetchLog.count u +
        fetchWeight pages u * (if u ∈ (runJobs pages site fuel jobs s).visited then 1 else 0)
  | [], s => le_refl _
  | (href, pa, cont) :: rest, s => by
    rw [runJobs]
    have h1 := scrape_branch_count pages site u fuel (site ++ href) pa cont s
    have h2 := runJobs_count pages site u fuel rest
      (scrape_branch pages site fuel (site ++ href) pa cont s)
    omega

theorem collect_fetch_bound (pages : List (String × Page)) (stateName : String)
    (cont : Option LexPath) (u : String) :
    (collect_regulations_for_state pages stateName cont).fetchLog.count u ≤ 2 := by
  unfold collect_regulations_for_state collectRunF
  have hw2 := fetchWeight_le_two pages u
  rcases hlk : pages.lookup (stateInitUrl stateName) with _ | pg
  · simp only [hlk]
    exact le_trans (List.count_le_length _ _) (by simp)
  · rcases pg with links | content
    · simp only [hlk]
      show ((runJobs pages REGULATIONS_BASE_URL 20
          (mkJobs cont
            (if cursorActive cont = true then (contList cont).headD 0 else 0)
            (links.filter (fun l => !is_reserved_or_repealed l.text)) 0)
          { initState with fetchLog := [stateInitUrl stateName] }).fetchLog).count u ≤ 2
      have hjobs := runJobs_count pages REGULATIONS_BASE_URL u 20
        (mkJobs cont
          (if cursorActive cont = true then (contList cont).headD 0 else 0)
          (links.filter (fun l => !is_reserved_or_repealed l.text)) 0)
        { initState with fetchLog := [stateInitUrl stateName] }
      rw [show (({ initState with fetchLog := [stateInitUrl stateName] } :
            CrawlState)).fetchLog = [stateInitUrl stateName] from rfl,
          show (({ initState with fetchLog := [stateInitUrl stateName] } :
            CrawlState)).visited = [] from rfl,
          show (if u ∈ ([] : List String) then 1 else 0) = 0 from by simp] at hjobs
      set R := runJobs pages REGULATIONS_BASE_URL 20
        (mkJobs cont
          (if cursorActive cont = true then (contList cont).headD 0 else 0)
          (links.filter (fun l => !is_reserved_or_repealed l.text)) 0)
        { initState with fetchLog := [stateInitUrl stateName] } with hR
      by_cases huu : u = stateInitUrl stateName
      · have hwu : fetchWeight pages u = 1 := by
          unfold fetchWeight
          rw [huu, hlk]
        have hc0 : List.count u [stateInitUrl stateName] = 1 := by
          rw [huu]
          simp
        rw [hc0, hwu] at hjobs
        by_cases hmem : u ∈ R.visited
        · rw [if_pos hmem] at hjobs
          omega
        · rw [if_neg hmem] at hjobs
          omega
      · have hc0 : List.count u [stateInitUrl stateName] = 0 :=
          List.count_eq_zero.mpr (by simp [huu])
        rw [hc0] at hjobs
        by_cases hmem : u ∈ R.visited
        · rw [if_pos hmem] at hjobs
          omega
        · rw [if_neg hmem] at hjobs
          omega
    · simp only [hlk]
      exact le_trans (List.count_le_length _ _) (by simp)

/-- C4 (amended): for every hierarchy, cyclic ones included, the traversal
terminates — the run result is independent of any fuel at or above the bound
the depth guard enforces — and within one run each absolute URL passes the
visited-set guard at most once (the visited list stays duplicate-free, so
every later encounter returns immediately as a no-op); each URL is fetched at
most twice, the second fetch being the content fetch of
`process_regulation_leaf` on leaf pages, not at most once as claimed. -/
theorem traversal_termination_dedup :
    (∀ (pages : List (String × Page)) (stateName : String) (cont : Option LexPath)
       (f : Nat), 20 ≤ f →
       collectRunF pages stateName f cont =
         collect_regulations_for_state pages stateName cont) ∧
    (∀ (pages : List (String × Page)) (stateName : String) (cont : Option LexPath),
       (collect_regulations_for_state pages stateName cont).visited.Nodup) ∧
    (∀ (pages : List (String × Page)) (stateName : String) (cont : Option LexPath)
       (u : String),
       (collect_regulations_for_state pages stateName cont).fetchLog.count u ≤ 2) :=
  ⟨fun pages st cont f hf => collect_fuel_indep pages st cont f hf,
   fun pages st cont => collect_visited_nodup pages st 20 cont,
   fun pages st cont u => collect_fetch_bound pages st cont u⟩

/-- Witness for C4 at a concrete site and fuel. -/
theorem traversal_termination_dedup_witness :
    collectRunF pagesOneLeaf "montana" 25 none =
      collect_regulations_for_state pagesOneLeaf "montana" none ∧
    (collect_regulations_for_state pagesOneLeaf "montana" none).visited.Nodup ∧
    (collect_regulations_for_state pagesOneLeaf "montana" none).fetchLog.count
      (REGULATIONS_BASE_URL ++ "/a/") ≤ 2 :=
  ⟨traversal_termination_dedup.1 pagesOneLeaf "montana" none 25 (by omega),
   traversal_termination_dedup.2.1 pagesOneLeaf "montana" none,
   traversal_termination_dedup.2.2 pagesOneLeaf "montana" none _⟩

/-! ## Provenance of fetches: everything fetched is the entry URL, a section
target, or the target of a clean child link. -/

theorem listInfix_trans {α : Type} {l m n : List α} (h1 : l <:+: m) (h2 : m <:+: n) :
    l <:+: n := by
  obtain ⟨s1, t1, rfl⟩ := h1
  obtain ⟨s2, t2, rfl⟩ := h2
  exact ⟨s2 ++ s1, t1 ++ t2, by simp⟩

theorem scrapeChildren_fetch_from (pages : List (String × Page)) (site u : String)
    (recurse : String → LexPath → Option LexPath → CrawlState → CrawlState)
    (hrec : ∀ u2 p κ t, u ∈ (recurse u2 p κ t).fetchLog →
      u ∈ t.fetchLog ∨ u = u2 ∨ cleanChildTarget pages site u)
    (url0 : String) (links0 : List Link) (hpage : (url0, Page.branch links0) ∈ pages)
    (url : String) (pa : LexPath) (cont : Option LexPath) (startIdx : Nat) :
    ∀ (links : List Link) (i : Nat) (s : CrawlState), (∀ l ∈ links, l ∈ links0) →
      u ∈ (scrapeChildren recurse site url pa cont startIdx links i s).fetchLog →
      u ∈ s.fetchLog ∨ cleanChildTarget pages site u
  | [], _, s, _, h => Or.inl h
  | l :: rest, i, s, hsub, h => by
    rw [scrapeChildren] at h
    split at h
    · exact scrapeChildren_fetch_from pages site u recurse hrec url0 links0 hpage url pa cont
        startIdx rest (i + 1) s (fun l' hl' => hsub l' (List.mem_cons_of_mem _ hl')) h
    · split at h
      · exact scrapeChildren_fetch_from pages site u recurse hrec url0 links0 hpage url pa cont
          startIdx rest (i + 1) s (fun l' hl' => hsub l' (List.mem_cons_of_mem _ hl')) h
      · split at h
        · exact scrapeChildren_fetch_from pages site u recurse hrec url0 links0 hpage url pa cont
            startIdx rest (i + 1)
            { s with malformedWarnings := s.malformedWarnings ++ [site ++ l.href] }
            (fun l' hl' => hsub l' (List.mem_cons_of_mem _ hl')) h
        · split at h
          · exact Or.inl h
          · rename_i hskip hres hmal hdep
            rcases scrapeChildren_fetch_from pages site u recurse hrec url0 links0 hpage url pa
              cont startIdx rest (i + 1) _
              (fun l' hl' => hsub l' (List.mem_cons_of_mem _ hl')) h with hin | hclean
            · rcases hrec _ _ _ _ hin with hin2 | heq | hclean
              · exact Or.inl hin2
              · refine Or.inr ⟨url0, links0, l, hpage, hsub l (List.mem_cons_self _ _), ?_, ?_, heq⟩
                · exact Bool.not_eq_true _ ▸ (by simpa using hres)
                · exact Bool.not_eq_true _ ▸ (by simpa using hmal)
              · exact Or.inr hclean
            · exact Or.inr hclean

theorem scrape_branch_fetch_from (pages : List (String × Page)) (site u : String) :
    ∀ (fuel : Nat) (url : String) (pa : LexPath) (cont : Option LexPath) (s : CrawlState),
      u ∈ (scrape_branch pages site fuel url pa cont s).fetchLog →
      u ∈ s.fetchLog ∨ u = url ∨ cleanChildTarget pages site u
  | 0, _, _, _, _, h => Or.inl h
  | fuel + 1, url, pa, cont, s, h => by
    rw [scrape_branch] at h
    by_cases hv : url ∈ s.visited
    · rw [if_pos hv] at h
      exact Or.inl h
    · rw [if_neg hv] at h
      have hbase : u ∈ s.fetchLog ++ [url] → u ∈ s.fetchLog ∨ u = url := by
        intro hm
        rcases List.mem_append.mp hm with hm | hm
        · exact Or.inl hm
        · exact Or.inr (List.mem_singleton.mp hm)
      rcases hlk : pages.lookup url with _ | pg
      · simp only [hlk] at h
        rcases hbase h with h1 | h2
        · exact Or.inl h1
        · exact Or.inr (Or.inl h2)
      · rcases pg with links | content
        · simp only [hlk] at h
          rcases scrapeChildren_fetch_from pages site u (scrape_branch pages site fuel)
            (fun u2 p κ t => scrape_branch_fetch_from pages site u fuel u2 p κ t)
            url links (mem_of_lookup_eq_some hlk) url pa cont (branchStartIdx pa cont)
            links 0 _ (fun l hl => hl) h with hin | hclean
          · rcases hbase hin with h1 | h2
            · exact Or.inl h1
            · exact Or.inr (Or.inl h2)
          · exact Or.inr (Or.inr hclean)
        · simp only [hlk] at h
          split at h
          · rcases hbase h with h1 | h2
            · exact Or.inl h1
            · exact Or.inr (Or.inl h2)
          · unfold process_regulation_leaf at h
            have h' : u ∈ (s.fetchLog ++ [url]) ++ [url] := by
              rcases hlk2 : pages.lookup url with _ | pg2
              · simpa [hlk2] using h
              · rcases pg2 with _ | _
                · simpa [hlk2] using h
                · simpa [hlk2] using h
            rcases List.mem_append.mp h' with hm | hm
            · rcases hbase hm with h1 | h2
              · exact Or.inl h1
              · exact Or.inr (Or.inl h2)
            · exact Or.inr (Or.inl (List.mem_singleton.mp hm))

theorem mkJobs_href (cont : Option LexPath) (startB : Nat) :
    ∀ (links : List Link) (i : Nat) (job : Job), job ∈ mkJobs cont startB links i →
      ∃ l ∈ links, job.1 = l.href
  | [], _, _, h => by simp [mkJobs] at h
  | l :: rest, i, job, h => by
    rw [mkJobs] at h
    split at h
    · obtain ⟨l', hl', hh⟩ := mkJobs_href cont startB rest (i + 1) job h
      exact ⟨l', List.mem_cons_of_mem _ hl', hh⟩
    · rcases List.mem_cons.mp h with rfl | h'
      · exact ⟨l, List.mem_cons_self _ _, rfl⟩
      · obtain ⟨l', hl', hh⟩ := mkJobs_href cont startB rest (i + 1) job h'
        exact ⟨l', List.mem_cons_of_mem _ hl', hh⟩

theorem runJobs_fetch_from (pages : List (String × Page)) (site u : String) (fuel : Nat) :
    ∀ (jobs : List Job) (s : CrawlState),
      u ∈ (runJobs pages site fuel jobs s).fetchLog →
      u ∈ s.fetchLog ∨ (∃ job ∈ jobs, u = site ++ job.1) ∨ cleanChildTarget pages site u
  | [], _, h => Or.inl h
  | (href, pa, cont) :: rest, s, h => by
    rcases runJobs_fetch_from pages site u fuel rest _ h with hin | hjob | hclean
    · rcases scrape_branch_fetch_from pages site u fuel (site ++ href) pa cont s hin with
        h1 | h2 | h3
      · exact Or.inl h1
      · exact Or.inr (Or.inl ⟨(href, pa, cont), List.mem_cons_self _ _, h2⟩)
      · exact Or.inr (Or.inr h3)
    · obtain ⟨job, hj, hju⟩ := hjob
      exact Or.inr (Or.inl ⟨job, List.mem_cons_of_mem _ hj, hju⟩)
    · exact Or.inr (Or.inr hclean)

theorem collect_fetch_from (pages : List (String × Page)) (stateName : String)
    (cont : Option LexPath) (u : String)
    (h : u ∈ (collect_regulations_for_state pages stateName cont).fetchLog) :
    u = stateInitUrl stateName ∨ topLevelTarget pages stateName u ∨
      cleanChildTarget pages REGULATIONS_BASE_URL u := by
  unfold collect_regulations_for_state collectRunF at h
  rcases hlk : pages.lookup (stateInitUrl stateName) with _ | pg
  · simp only [hlk] at h
    exact Or.inl (List.mem_singleton.mp h)
  · rcases pg with links | content
    · simp only [hlk] at h
      rcases runJobs_fetch_from pages REGULATIONS_BASE_URL u 20 _ _ h with hin | hjob | hclean
      · exact Or.inl (List.mem_singleton.mp hin)
      · obtain ⟨job, hj, rfl⟩ := hjob
        obtain ⟨l, hl, hh⟩ := mkJobs_href _ _ _ _ _ hj
        rw [List.mem_filter] at hl
        refine Or.inr (Or.inl ⟨links, l, hlk, hl.1, ?_, by rw [hh]⟩)
        simpa using hl.2
      · exact Or.inr (Or.inr hclean)
    · simp only [hlk] at h
      exact Or.inl (List.mem_singleton.mp h)

/-! ## Failure-log and record provenance: nothing is logged or persisted
without having been fetched. -/

theorem processLeaf_logged (pages : List (String × Page)) (url : String) (pa : LexPath)
    (s : CrawlState)
    (hf : ∀ v ∈ s.failures, v ∈ s.fetchLog) (hr : ∀ r ∈ s.records, r.url ∈ s.fetchLog) :
    (∀ v ∈ (process_regulation_leaf pages url pa s).failures,
       v ∈ (process_regulation_leaf pages url pa s).fetchLog) ∧
    (∀ r ∈ (process_regulation_leaf pages url pa s).records,
       r.url ∈ (process_regulation_leaf pages url pa s).fetchLog) := by
  unfold process_regulation_leaf
  rcases pages.lookup url with _ | pg
  · refine ⟨?_, ?_⟩
    · intro v hv
      rcases List.mem_append.mp hv with hv | hv
      · exact List.mem_append_left _ (hf v hv)
      · exact List.mem_append_right _ hv
    · intro r hr'
      exact List.mem_append_left _ (hr r hr')
  · rcases pg with _ | content
    · refine ⟨?_, ?_⟩
      · intro v hv
        rcases List.mem_append.mp hv with hv | hv
        · exact List.mem_append_left _ (hf v hv)
        · exact List.mem_append_right _ hv
      · intro r hr'
        exact List.mem_append_left _ (hr r hr')
    · refine ⟨?_, ?_⟩
      · intro v hv
        exact List.mem_append_left _ (hf v hv)
      · intro r hr'
        rcases List.mem_append.mp hr' with hr' | hr'
        · exact List.mem_append_left _ (hr r hr')
        · rw [List.mem_singleton] at hr'
          subst hr'
          exact List.mem_append_right _ (List.mem_singleton.mpr rfl)

theorem scrapeChildren_logged
    (recurse : String → LexPath → Option LexPath → CrawlState → CrawlState)
    (hrec : ∀ u2 p κ t, ((∀ v ∈ t.failures, v ∈ t.fetchLog) ∧
        (∀ r ∈ t.records, r.url ∈ t.fetchLog)) →
      (∀ v ∈ (recurse u2 p κ t).failures, v ∈ (recurse u2 p κ t).fetchLog) ∧
      (∀ r ∈ (recurse u2 p κ t).records, r.url ∈ (recurse u2 p κ t).fetchLog))
    (site url : String) (pa : LexPath) (cont : Option LexPath) (startIdx : Nat) :
    ∀ (links : List Link) (i : Nat) (s : CrawlState),
      ((∀ v ∈ s.failures, v ∈ s.fetchLog) ∧ (∀ r ∈ s.records, r.url ∈ s.fetchLog)) →
      (∀ v ∈ (scrapeChildren recurse site url pa cont startIdx links i s).failures,
         v ∈ (scrapeChildren recurse site url pa cont startIdx links i s).fetchLog) ∧
      (∀ r ∈ (scrapeChildren recurse site url pa cont startIdx links i s).records,
         r.url ∈ (scrapeChildren recurse site url pa cont startIdx links i s).fetchLog)
  | [], _, _, h => h
  | l :: rest, i, s, h => by
    rw [scrapeChildren]
    split
    · exact scrapeChildren_logged recurse hrec site url pa cont startIdx rest (i + 1) s h
    · split
      · exact scrapeChildren_logged recurse hrec site url pa cont startIdx rest (i + 1) s h
      · split
        · exact scrapeChildren_logged recurse hrec site url pa cont startIdx rest (i + 1) _ h
        · split
          · exact h
          · exact scrapeChildren_logged recurse hrec site url pa cont startIdx rest (i + 1) _
              (hrec _ _ _ _ h)

theorem scrape_branch_logged (pages : List (String × Page)) (site : String) :
    ∀ (fuel : Nat) (url : String) (pa : LexPath) (cont : Option LexPath) (s : CrawlState),
      ((∀ v ∈ s.failures, v ∈ s.fetchLog) ∧ (∀ r ∈ s.records, r.url ∈ s.fetchLog)) →
      (∀ v ∈ (scrape_branch pages site fuel url pa cont s).failures,
         v ∈ (scrape_branch pages site fuel url pa cont s).fetchLog) ∧
      (∀ r ∈ (scrape_branch pages site fuel url pa cont s).records,
         r.url ∈ (scrape_branch pages site fuel url pa cont s).fetchLog)
  | 0, _, _, _, _, h => h
  | fuel + 1, url, pa, cont, s, h => by
    rw [scrape_branch]
    by_cases hv : url ∈ s.visited
    · rw [if_pos hv]
      exact h
    · rw [if_neg hv]
      have h1 : (∀ v ∈ s.failures, v ∈ s.fetchLog ++ [url]) ∧
          (∀ r ∈ s.records, r.url ∈ s.fetchLog ++ [url]) :=
        ⟨fun v hv' => List.mem_append_left _ (h.1 v hv'),
         fun r hr' => List.mem_append_left _ (h.2 r hr')⟩
      rcases hlk : pages.lookup url with _ | pg
      · simp only [hlk]
        refine ⟨?_, h1.2⟩
        intro v hv'
        rcases List.mem_append.mp hv' with hv' | hv'
        · exact h1.1 v hv'
        · exact List.mem_append_right _ hv'
      · rcases pg with links | content
        · simp only [hlk]
          exact scrapeChildren_logged (scrape_branch pages site fuel)
            (fun u2 p κ t ht => scrape_branch_logged pages site fuel u2 p κ t ht)
            site url pa cont (branchStartIdx pa cont) links 0 _ h1
        · simp only [hlk]
          split
          · exact h1
          · exact processLeaf_logged pages url pa _ h1.1 h1.2

theorem runJobs_logged (pages : List (String × Page)) (site : String) (fuel : Nat) :
    ∀ (jobs : List Job) (s : CrawlState),
      ((∀ v ∈ s.failures, v ∈ s.fetchLog) ∧ (∀ r ∈ s.records, r.url ∈ s.fetchLog)) →
      (∀ v ∈ (runJobs pages site fuel jobs s).failures,
         v ∈ (runJobs pages site fuel jobs s).fetchLog) ∧
      (∀ r ∈ (runJobs pages site fuel jobs s).records,
         r.url ∈ (runJobs pages site fuel jobs s).fetchLog)
  | [], _, h => h
  | (href, pa, cont) :: rest, s, h =>
    runJobs_logged pages site fuel rest _
      (scrape_branch_logged pages site fuel (site ++ href) pa cont s h)

theorem collect_logged (pages : List (String × Page)) (stateName : String)
    (cont : Option LexPath) :
    (∀ v ∈ (collect_regulations_for_state pages stateName cont).failures,
       v ∈ (collect_regulations_for_state pages stateName cont).fetchLog) ∧
    (∀ r ∈ (collect_regulations_for_state pages stateName cont).records,
       r.url ∈ (collect_regulations_for_state pages stateName cont).fetchLog) := by
  unfold collect_regulations_for_state collectRunF
  rcases hlk : pages.lookup (stateInitUrl stateName) with _ | pg
  · exact ⟨fun v hv => by simp [initState] at hv, fun r hr => by simp [initState] at hr⟩
  · rcases pg with links | content
    · exact runJobs_logged pages REGULATIONS_BASE_URL 20 _ _
        ⟨fun v hv => by simp [initState] at hv, fun r hr => by simp [initState] at hr⟩
    · exact ⟨fun v hv => by simp [initState] at hv, fun r hr => by simp [initState] at hr⟩

theorem scrapeChildren_malformed_warned
    (recurse : String → LexPath → Option LexPath → CrawlState → CrawlState)
    (hrec : ∀ u2 p κ t, StateExt t (recurse u2 p κ t))
    (site url : String) (pa : LexPath) (cont : Option LexPath) (startIdx : Nat)
    (hdep : pa.length < 20) :
    ∀ (links : List Link) (i k : Nat) (l : Link) (s : CrawlState),
      links.get? k = some l → startIdx ≤ i + k →
      is_reserved_or_repealed l.text = false → isMalformedHref l.href = true →
      site ++ l.href ∈
        (scrapeChildren recurse site url pa cont startIdx links i s).malformedWarnings
  | [], _, k, _, _, hget, _, _, _ => by simp at hget
  | l0 :: rest, i, 0, l, s, hget, hstart, hres, hmal => by
    have hl : l0 = l := by simpa using hget
    subst hl
    rw [scrapeChildren]
    rw [if_neg (by omega), if_neg (by simp [hres]), if_pos hmal]
    have hbase : site ++ l0.href ∈
        (s.malformedWarnings ++ [site ++ l0.href]) := by simp
    exact listPre_mem
      (scrapeChildren_ext recurse hrec site url pa cont startIdx rest (i + 1)
        { s with malformedWarnings := s.malformedWarnings ++ [site ++ l0.href] }).2.2.2.2.2
      hbase
  | l0 :: rest, i, k + 1, l, s, hget, hstart, hres, hmal => by
    have hget' : rest.get? k = some l := by simpa using hget
    have hstart' : startIdx ≤ (i + 1) + k := by omega
    rw [scrapeChildren]
    split
    · exact scrapeChildren_malformed_warned recurse hrec site url pa cont startIdx hdep rest
        (i + 1) k l s hget' hstart' hres hmal
    · split
      · exact scrapeChildren_malformed_warned recurse hrec site url pa cont startIdx hdep rest
          (i + 1) k l s hget' hstart' hres hmal
      · split
        · exact scrapeChildren_malformed_warned recurse hrec site url pa cont startIdx hdep rest
            (i + 1) k l _ hget' hstart' hres hmal
        · split
          · omega
          · exact scrapeChildren_malformed_warned recurse hrec site url pa cont startIdx hdep rest
              (i + 1) k l _ hget' hstart' hres hmal

/-- C10 (amended): a URL in the fetch log is always the initial URL, the
target of a non-excluded top-level section link (which undergoes no
malformed-href check before being enqueued), or the target of some clean
(non-excluded, non-malformed) child link; every failure-log entry was fetched
first, so a node reachable only through malformed child links is never
fetched and never logged as a hard failure; and below the depth ceiling every
malformed, non-excluded child link at or past the resume start index is
skipped with a warning. -/
theorem malformed_links_amended :
    (∀ (pages : List (String × Page)) (stateName : String) (cont : Option LexPath)
       (u : String),
       u ∈ (collect_regulations_for_state pages stateName cont).fetchLog →
       u = stateInitUrl stateName ∨ topLevelTarget pages stateName u ∨
         cleanChildTarget pages REGULATIONS_BASE_URL u) ∧
    (∀ (pages : List (String × Page)) (stateName : String) (cont : Option LexPath)
       (u : String),
       u ∈ (collect_regulations_for_state pages stateName cont).failures →
       u ∈ (collect_regulations_for_state pages stateName cont).fetchLog) ∧
    (∀ (pages : List (String × Page)) (site : String) (fuel : Nat) (url : String)
       (pa : LexPath) (cont : Option LexPath) (startIdx : Nat) (links : List Link)
       (k : Nat) (l : Link) (s : CrawlState),
       pa.length < 20 → links.get? k = some l → startIdx ≤ k →
       is_reserved_or_repealed l.text = false → isMalformedHref l.href = true →
       site ++ l.href ∈
         (scrapeChildren (scrape_branch pages site fuel) site url pa cont startIdx
           links 0 s).malformedWarnings) :=
  ⟨fun pages st cont u h => collect_fetch_from pages st cont u h,
   fun pages st cont u h => (collect_logged pages st cont).1 u h,
   fun pages site fuel url pa cont startIdx links k l s hdep hget hstart hres hmal =>
     scrapeChildren_malformed_warned (scrape_branch pages site fuel)
       (fun u2 p κ t => scrape_branch_ext pages site fuel u2 p κ t)
       site url pa cont startIdx hdep links 0 k l s hget (by omega) hres hmal⟩

/-- Witness for C10 at concrete inputs. -/
theorem malformed_links_amended_witness :
    (REGULATIONS_BASE_URL ++ "/a//" = stateInitUrl "montana" ∨
     topLevelTarget pagesMalformedTop "montana" (REGULATIONS_BASE_URL ++ "/a//") ∨
     cleanChildTarget pagesMalformedTop REGULATIONS_BASE_URL
       (REGULATIONS_BASE_URL ++ "/a//")) ∧
    (REGULATIONS_BASE_URL ++ "/a/") ∈
      (collect_regulations_for_state pagesFailure "montana" none).fetchLog ∧
    (REGULATIONS_BASE_URL ++ "/x//") ∈
      (scrapeChildren (scrape_branch pagesFailure REGULATIONS_BASE_URL 3)
        REGULATIONS_BASE_URL (REGULATIONS_BASE_URL ++ "/q/") [0] none 0
        [⟨"Chapter 1", "/x//"⟩] 0 initState).malformedWarnings :=
  ⟨malformed_links_amended.1 pagesMalformedTop "montana" none
     (REGULATIONS_BASE_URL ++ "/a//") (by decide),
   malformed_links_amended.2.1 pagesFailure "montana" none
     (REGULATIONS_BASE_URL ++ "/a/") (by decide),
   malformed_links_amended.2.2 pagesFailure REGULATIONS_BASE_URL 3
     (REGULATIONS_BASE_URL ++ "/q/") [0] none 0 [⟨"Chapter 1", "/x//"⟩] 0
     ⟨"Chapter 1", "/x//"⟩ initState (by decide) (by decide) (by decide)
     (by decide) (by decide)⟩

theorem containsSub_mono {u p q : List Char} (hpq : p <:+: q)
    (h : containsSub u q = true) : containsSub u p = true := by
  simp only [containsSub, decide_eq_true_eq] at h ⊢
  exact listInfix_trans hpq h

/-- C2 (amended): the exclusion predicate holds iff the text contains
"(repealed)" in parenthesized form or "reserved" in bare or parenthesized
form, case-insensitively — a bare "repealed" does not match; and a URL all of
whose incoming links (top-level or child, anywhere in the site) carry
excluded text, and which is not the initial URL, is never fetched, never
written to the failure log and never written to the output. -/
theorem exclusion_amended :
    (∀ text : String, is_reserved_or_repealed text =
       (containsSub (upperChars text) "(REPEALED)".data ||
        containsSub (upperChars text) "RESERVED".data)) ∧
    (∀ (pages : List (String × Page)) (stateName : String) (cont : Option LexPath)
       (u : String),
       u ≠ stateInitUrl stateName →
       (∀ (v : String) (links : List Link) (l : Link),
          (v, Page.branch links) ∈ pages → l ∈ links →
          u = REGULATIONS_BASE_URL ++ l.href → is_reserved_or_repealed l.text = true) →
       u ∉ (collect_regulations_for_state pages stateName cont).fetchLog ∧
       u ∉ (collect_regulations_for_state pages stateName cont).failures ∧
       ∀ r ∈ (collect_regulations_for_state pages stateName cont).records, r.url ≠ u) := by
  constructor
  · intro text
    unfold is_reserved_or_repealed
    rcases hb : containsSub (upperChars text) "(RESERVED)".data with _ | _
    · simp [hb]
    · have hc : containsSub (upperChars text) "RESERVED".data = true :=
        containsSub_mono (by decide) hb
      simp [hb, hc]
  · intro pages st cont u hroot hALL
    have hfetch : u ∉ (collect_regulations_for_state pages st cont).fetchLog := by
      intro hmem
      rcases collect_fetch_from pages st cont u hmem with h1 | h2 | h3
      · exact hroot h1
      · obtain ⟨links, l, hlk, hl, hres, hu⟩ := h2
        rw [hALL _ links l (mem_of_lookup_eq_some hlk) hl hu] at hres
        exact absurd hres (by decide)
      · obtain ⟨v, links, l, hv, hl, hres, hmal, hu⟩ := h3
        rw [hALL v links l hv hl hu] at hres
        exact absurd hres (by decide)
    refine ⟨hfetch, ?_, ?_⟩
    · intro hmem
      exact hfetch ((collect_logged pages st cont).1 u hmem)
    · intro r hr hru
      exact hfetch (hru ▸ (collect_logged pages st cont).2 r hr)

/-- Witness for C2 at concrete inputs: the repealed department target of
`pagesShifted` is never fetched, logged or persisted. -/
theorem exclusion_amended_witness :
    is_reserved_or_repealed "Chapter 9 (Repealed)" =
      (containsSub (upperChars "Chapter 9 (Repealed)") "(REPEALED)".data ||
       containsSub (upperChars "Chapter 9 (Repealed)") "RESERVED".data) ∧
    (REGULATIONS_BASE_URL ++ "/r/") ∉
      (collect_regulations_for_state pagesShifted "montana" none).fetchLog ∧
    (REGULATIONS_BASE_URL ++ "/r/") ∉
      (collect_regulations_for_state pagesShifted "montana" none).failures ∧
    ∀ r ∈ (collect_regulations_for_state pagesShifted "montana" none).records,
      r.url ≠ REGULATIONS_BASE_URL ++ "/r/" :=
  ⟨exclusion_amended.1 "Chapter 9 (Repealed)",
   exclusion_amended.2 pagesShifted "montana" none (REGULATIONS_BASE_URL ++ "/r/")
     (by decide)
     (by
       intro v links l hv hl hu
       simp only [pagesShifted, List.mem_cons, List.not_mem_nil, or_false] at hv
       rcases hv with h | h | h
       · rw [Prod.mk.injEq] at h
         obtain ⟨-, h2⟩ := h
         injection h2 with h3
         subst h3
         rcases List.mem_cons.mp hl with rfl | hl2
         · decide
         · rcases List.mem_cons.mp hl2 with rfl | hl3
           · exact absurd hu (by decide)
           · rcases List.mem_cons.mp hl3 with rfl | hl4
             · exact absurd hu (by decide)
             · simp at hl4
       · rw [Prod.mk.injEq] at h
         exact absurd h.2 (by simp)
       · rw [Prod.mk.injEq] at h
         exact absurd h.2 (by simp))⟩

/-! ## Uniqueness of emitted lex paths -/

theorem pre_eq_of_len {α : Type} {l1 l2 l : List α} (h1 : l1 <+: l) (h2 : l2 <+: l)
    (hlen : l1.length = l2.length) : l1 = l2 := by
  obtain ⟨t1, rfl⟩ := h1
  obtain ⟨t2, hh⟩ := h2
  have e1 : (l1 ++ t1).take l1.length = l1 := List.take_left l1 t1
  have e2 : (l2 ++ t2).take l2.length = l2 := List.take_left l2 t2
  rw [← hh, hlen, e2] at e1
  exact e1.symm

theorem sibling_ne {pa : LexPath} {i k : Nat} {q : LexPath}
    (h1 : (pa ++ [i]) <+: q) (h2 : (pa ++ [k]) <+: q) : i = k := by
  have he : pa ++ [i] = pa ++ [k] := pre_eq_of_len h1 h2 (by simp)
  have := congrArg (fun x => List.drop pa.length x) he
  simpa using this

theorem nodup_append_one {α : Type} {xs : List α} {x : α} (h : xs.Nodup) (hx : x ∉ xs) :
    (xs ++ [x]).Nodup := by
  rw [List.nodup_append]
  refine ⟨h, List.nodup_singleton x, ?_⟩
  intro a ha hb
  rw [List.mem_singleton] at hb
  exact absurd (hb ▸ ha) hx

theorem scrapeChildren_records
    (recurse : String → LexPath → Option LexPath → CrawlState → CrawlState)
    (site url : String) (pa : LexPath) (cont : Option LexPath) (startIdx : Nat)
    (hrec : ∀ (u2 : String) (j : Nat) (κ : Option LexPath) (t : CrawlState),
      ((t.records.map (fun r => r.lex_path)).Nodup ∧
        ∀ r ∈ t.records, ¬ (pa ++ [j]) <+: r.lex_path) →
      (((recurse u2 (pa ++ [j]) κ t).records.map (fun r => r.lex_path)).Nodup ∧
        ∀ r ∈ (recurse u2 (pa ++ [j]) κ t).records,
          r ∈ t.records ∨ (pa ++ [j]) <+: r.lex_path)) :
    ∀ (links : List Link) (i : Nat) (s : CrawlState),
      ((s.records.map (fun r => r.lex_path)).Nodup ∧
        ∀ r ∈ s.records, ∀ k, i ≤ k → ¬ (pa ++ [k]) <+: r.lex_path) →
      (((scrapeChildren recurse site url pa cont startIdx links i s).records.map
          (fun r => r.lex_path)).Nodup ∧
        ∀ r ∈ (scrapeChildren recurse site url pa cont startIdx links i s).records,
          r ∈ s.records ∨ ∃ k, i ≤ k ∧ (pa ++ [k]) <+: r.lex_path)
  | [], i, s, h => ⟨h.1, fun r hr => Or.inl hr⟩
  | l :: rest, i, s, h => by
    rw [scrapeChildren]
    split
    · have hres := scrapeChildren_records recurse site url pa cont startIdx hrec rest (i + 1) s
        ⟨h.1, fun r hr k hk => h.2 r hr k (by omega)⟩
      refine ⟨hres.1, fun r hr => ?_⟩
      rcases hres.2 r hr with hin | ⟨k, hk, hp⟩
      · exact Or.inl hin
      · exact Or.inr ⟨k, by omega, hp⟩
    · split
      · have hres := scrapeChildren_records recurse site url pa cont startIdx hrec rest (i + 1) s
          ⟨h.1, fun r hr k hk => h.2 r hr k (by omega)⟩
        refine ⟨hres.1, fun r hr => ?_⟩
        rcases hres.2 r hr with hin | ⟨k, hk, hp⟩
        · exact Or.inl hin
        · exact Or.inr ⟨k, by omega, hp⟩
      · split
        · have hres := scrapeChildren_records recurse site url pa cont startIdx hrec rest (i + 1)
            { s with malformedWarnings := s.malformedWarnings ++ [site ++ l.href] }
            ⟨h.1, fun r hr k hk => h.2 r hr k (by omega)⟩
          refine ⟨hres.1, fun r hr => ?_⟩
          rcases hres.2 r hr with hin | ⟨k, hk, hp⟩
          · exact Or.inl hin
          · exact Or.inr ⟨k, by omega, hp⟩
        · split
          · exact ⟨h.1, fun r hr => Or.inl hr⟩
          · have hchild := hrec (site ++ l.href) i
              (if cursorActive cont = true ∧ startIdx < i then none else cont) s
              ⟨h.1, fun r hr => h.2 r hr i (le_refl i)⟩
            have hres := scrapeChildren_records recurse site url pa cont startIdx hrec rest (i + 1)
              (recurse (site ++ l.href) (pa ++ [i])
                (if cursorActive cont = true ∧ startIdx < i then none else cont) s)
              ⟨hchild.1, fun r hr k hk => ?_⟩
            · refine ⟨hres.1, fun r hr => ?_⟩
              rcases hres.2 r hr with hin | ⟨k, hk, hp⟩
              · rcases hchild.2 r hin with hin2 | hp2
                · exact Or.inl hin2
                · exact Or.inr ⟨i, le_refl i, hp2⟩
              · exact Or.inr ⟨k, by omega, hp⟩
            · rcases hchild.2 r hr with hin2 | hp2
              · exact h.2 r hin2 k (by omega)
              · intro hpk
                have : i = k := sibling_ne hp2 hpk
                omega

theorem scrape_branch_records (pages : List (String × Page)) (site : String) :
    ∀ (fuel : Nat) (url : String) (pa : LexPath) (cont : Option LexPath) (s : CrawlState),
      ((s.records.map (fun r => r.lex_path)).Nodup ∧
        ∀ r ∈ s.records, ¬ pa <+: r.lex_path) →
      (((scrape_branch pages site fuel url pa cont s).records.map
          (fun r => r.lex_path)).Nodup ∧
        ∀ r ∈ (scrape_branch pages site fuel url pa cont s).records,
          r ∈ s.records ∨ pa <+: r.lex_path)
  | 0, _, _, _, _, h => ⟨h.1, fun r hr => Or.inl hr⟩
  | fuel + 1, url, pa, cont, s, h => by
    rw [scrape_branch]
    by_cases hv : url ∈ s.visited
    · rw [if_pos hv]
      exact ⟨h.1, fun r hr => Or.inl hr⟩
    · rw [if_neg hv]
      rcases hlk : pages.lookup url with _ | pg
      · simp only [hlk]
        exact ⟨h.1, fun r hr => Or.inl hr⟩
      · rcases pg with links | content
        · simp only [hlk]
          have hloop := scrapeChildren_records (scrape_branch pages site fuel) site url pa cont
            (branchStartIdx pa cont)
            (fun u2 j κ t ht => scrape_branch_records pages site fuel u2 (pa ++ [j]) κ t ht)
            links 0
            { s with visited := s.visited ++ [url], fetchLog := s.fetchLog ++ [url] }
            ⟨h.1, fun r hr k _ hpk =>
              h.2 r hr (listPre_trans (listPre_append pa [k]) hpk)⟩
          refine ⟨hloop.1, fun r hr => ?_⟩
          rcases hloop.2 r hr with hin | ⟨k, _, hp⟩
          · exact Or.inl hin
          · exact Or.inr (listPre_trans (listPre_append pa [k]) hp)
        · simp only [hlk]
          split
          · exact ⟨h.1, fun r hr => Or.inl hr⟩
          · unfold process_regulation_leaf
            rcases hlk2 : pages.lookup url with _ | pg2
            · exact ⟨h.1, fun r hr => Or.inl hr⟩
            · rcases pg2 with _ | content2
              · exact ⟨h.1, fun r hr => Or.inl hr⟩
              · refine ⟨?_, ?_⟩
                · rw [List.map_append]
                  exact nodup_append_one h.1 (by
                    intro hmem
                    rw [List.mem_map] at hmem
                    obtain ⟨r, hr, hrp⟩ := hmem
                    exact h.2 r hr (hrp ▸ listPre_refl pa))
                · intro r hr
                  rcases List.mem_append.mp hr with hr | hr
                  · exact Or.inl hr
                  · rw [List.mem_singleton] at hr
                    subst hr
                    exact Or.inr (listPre_refl pa)

theorem collect_records_loop (pages : List (String × Page)) (cont : Option LexPath)
    (startB : Nat) :
    ∀ (links : List Link) (i : Nat) (s : CrawlState),
      ((s.records.map (fun r => r.lex_path)).Nodup ∧
        ∀ r ∈ s.records, ∀ k, i ≤ k → ¬ [k] <+: r.lex_path) →
      ((runJobs pages REGULATIONS_BASE_URL 20 (mkJobs cont startB links i) s).records.map
        (fun r => r.lex_path)).Nodup
  | [], _, _, h => h.1
  | l :: rest, i, s, h => by
    rw [mkJobs]
    split
    · exact collect_records_loop pages cont startB rest (i + 1) s
        ⟨h.1, fun r hr k hk => h.2 r hr k (by omega)⟩
    · rw [runJobs]
      have hjob := scrape_branch_records pages REGULATIONS_BASE_URL 20
        (REGULATIONS_BASE_URL ++ l.href) [i]
        (if i = startB ∧ cursorActive cont = true then cont else none) s
        ⟨h.1, fun r hr => h.2 r hr i (le_refl i)⟩
      refine collect_records_loop pages cont startB rest (i + 1) _ ⟨hjob.1, ?_⟩
      intro r hr k hk hpk
      rcases hjob.2 r hr with hin | hp
      · exact h.2 r hin k (by omega) hpk
      · have : i = k := by
          have h1 : ([] : List Nat) ++ [i] <+: r.lex_path := by simpa using hp
          have h2 : ([] : List Nat) ++ [k] <+: r.lex_path := by simpa using hpk
          exact sibling_ne h1 h2
        omega

/-- C6: within a single crawl run no two emitted records carry the same lex
path — every recursion assigns a child the path `parent ++ [i]` with distinct
sibling indices, so the list of emitted lex paths is duplicate-free, for every
site map and every resume cursor. -/
theorem lexpath_uniqueness (pages : List (String × Page)) (stateName : String)
    (cont : Option LexPath) :
    ((collect_regulations_for_state pages stateName cont).records.map
      (fun r => r.lex_path)).Nodup := by
  unfold collect_regulations_for_state collectRunF
  rcases hlk : pages.lookup (stateInitUrl stateName) with _ | pg
  · exact List.nodup_nil
  · rcases pg with links | content
    · exact collect_records_loop pages cont _ _ 0 _
        ⟨List.nodup_nil, fun r hr => by simp [initState] at hr⟩
    · exact List.nodup_nil

/-! ## Depth ceiling -/

theorem scrapeChildren_reclen
    (recurse : String → LexPath → Option LexPath → CrawlState → CrawlState)
    (site url : String) (pa : LexPath) (cont : Option LexPath) (startIdx : Nat)
    (hrec : ∀ (u2 : String) (j : Nat) (κ : Option LexPath) (t : CrawlState),
      (pa ++ [j]).length ≤ 20 →
      ∀ r ∈ (recurse u2 (pa ++ [j]) κ t).records, r ∈ t.records ∨ r.lex_path.length ≤ 20) :
    ∀ (links : List Link) (i : Nat) (s : CrawlState),
      ∀ r ∈ (scrapeChildren recurse site url pa cont startIdx links i s).records,
        r ∈ s.records ∨ r.lex_path.length ≤ 20
  | [], _, _, r, hr => Or.inl hr
  | l :: rest, i, s, r, hr => by
    rw [scrapeChildren] at hr
    split at hr
    · exact scrapeChildren_reclen recurse site url pa cont startIdx hrec rest (i + 1) s r hr
    · split at hr
      · exact scrapeChildren_reclen recurse site url pa cont startIdx hrec rest (i + 1) s r hr
      · split at hr
        · exact scrapeChildren_reclen recurse site url pa cont startIdx hrec rest (i + 1)
            { s with malformedWarnings := s.malformedWarnings ++ [site ++ l.href] } r hr
        · split at hr
          · exact Or.inl hr
          · rename_i hdep
            rcases scrapeChildren_reclen recurse site url pa cont startIdx hrec rest (i + 1) _
              r hr with hin | hlen
            · rcases hrec (site ++ l.href) i _ s (by simp; omega) r hin with hin2 | hlen2
              · exact Or.inl hin2
              · exact Or.inr hlen2
            · exact Or.inr hlen

theorem scrape_branch_reclen (pages : List (String × Page)) (site : String) :
    ∀ (fuel : Nat) (url : String) (pa : LexPath) (cont : Option LexPath) (s : CrawlState),
      pa.length ≤ 20 →
      ∀ r ∈ (scrape_branch pages site fuel url pa cont s).records,
        r ∈ s.records ∨ r.lex_path.length ≤ 20
  | 0, _, _, _, _, _, r, hr => Or.inl hr
  | fuel + 1, url, pa, cont, s, hlen, r, hr => by
    rw [scrape_branch] at hr
    by_cases hv : url ∈ s.visited
    · rw [if_pos hv] at hr
      exact Or.inl hr
    · rw [if_neg hv] at hr
      rcases hlk : pages.lookup url with _ | pg
      · simp only [hlk] at hr
        exact Or.inl hr
      · rcases pg with links | content
        · simp only [hlk] at hr
          exact scrapeChildren_reclen (scrape_branch pages site fuel) site url pa cont
            (branchStartIdx pa cont)
            (fun u2 j κ t hl r' hr' =>
              scrape_branch_reclen pages site fuel u2 (pa ++ [j]) κ t hl r' hr')
            links 0
            { s with visited := s.visited ++ [url], fetchLog := s.fetchLog ++ [url] } r hr
        · simp only [hlk] at hr
          split at hr
          · exact Or.inl hr
          · unfold process_regulation_leaf at hr
            rcases hlk2 : pages.lookup url with _ | pg2
            · simp only [hlk2] at hr
              exact Or.inl hr
            · rcases pg2 with _ | content2
              · simp only [hlk2] at hr
                exact Or.inl hr
              · simp only [hlk2] at hr
                rcases List.mem_append.mp hr with hr | hr
                · exact Or.inl hr
                · rw [List.mem_singleton] at hr
                  subst hr
                  exact Or.inr hlen

theorem runJobs_reclen (pages : List (String × Page)) (site : String) (fuel : Nat) :
    ∀ (jobs : List Job), (∀ job ∈ jobs, job.2.1.length ≤ 20) →
      ∀ (s : CrawlState) (r : Record), r ∈ (runJobs pages site fuel jobs s).records →
        r ∈ s.records ∨ r.lex_path.length ≤ 20
  | [], _, _, r, hr => Or.inl hr
  | (href, pa, cont) :: rest, hjobs, s, r, hr => by
    rw [runJobs] at hr
    rcases runJobs_reclen pages site fuel rest
      (fun job hjob => hjobs job (List.mem_cons_of_mem _ hjob)) _ r hr with hin | hlen
    · exact scrape_branch_reclen pages site fuel (site ++ href) pa cont s
        (hjobs (href, pa, cont) (List.mem_cons_self _ _)) r hin
    · exact Or.inr hlen

theorem collect_reclen (pages : List (String × Page)) (stateName : String)
    (cont : Option LexPath) (r : Record)
    (hr : r ∈ (collect_regulations_for_state pages stateName cont).records) :
    r.lex_path.length ≤ 20 := by
  unfold collect_regulations_for_state collectRunF at hr
  rcases hlk : pages.lookup (stateInitUrl stateName) with _ | pg
  · simp only [hlk] at hr
    simp [initState] at hr
  · rcases pg with links | content
    · simp only [hlk] at hr
      rcases runJobs_reclen pages REGULATIONS_BASE_URL 20 _
        (fun job hjob => by
          obtain ⟨j, hj⟩ := mkJobs_path _ _ _ _ job hjob
          rw [hj]
          simp) _ r hr with hin | hlen
      · simp [initState] at hin
      · exact hlen
    · simp only [hlk] at hr
      simp [initState] at hr

theorem crawlState_eta (s : CrawlState) :
    ({ s with malformedWarnings := s.malformedWarnings ++ [],
              depthWarnings := s.depthWarnings ++ [] } : CrawlState) = s := by
  cases s
  simp

theorem scrapeChildren_depth
    (recurse : String → LexPath → Option LexPath → CrawlState → CrawlState)
    (site url : String) (pa : LexPath) (cont : Option LexPath) (startIdx : Nat)
    (hd : 20 ≤ pa.length) :
    ∀ (links : List Link) (i : Nat) (s : CrawlState), ∃ mw,
      scrapeChildren recurse site url pa cont startIdx links i s =
        { s with malformedWarnings := s.malformedWarnings ++ mw,
                 depthWarnings := s.depthWarnings ++
                   (if depthTrigger startIdx links i = true then [url] else []) }
  | [], i, s => by
    refine ⟨[], ?_⟩
    rw [scrapeChildren]
    have : depthTrigger startIdx [] i = false := rfl
    rw [this]
    simp only [if_neg (by simp : ¬ (false = true))]
    exact (crawlState_eta s).symm
  | l :: rest, i, s => by
    rw [scrapeChildren, depthTrigger]
    split
    · exact scrapeChildren_depth recurse site url pa cont startIdx hd rest (i + 1) s
    · split
      · exact scrapeChildren_depth recurse site url pa cont startIdx hd rest (i + 1) s
      · split
        · obtain ⟨mw, hmw⟩ := scrapeChildren_depth recurse site url pa cont startIdx hd rest
            (i + 1) { s with malformedWarnings := s.malformedWarnings ++ [site ++ l.href] }
          refine ⟨[site ++ l.href] ++ mw, ?_⟩
          rw [hmw]
          cases s
          simp
        · refine ⟨[], ?_⟩
          cases s
          simp [hd]

theorem scrape_branch_depth (pages : List (String × Page)) (site : String) (fuel : Nat)
    (url : String) (pa : LexPath) (cont : Option LexPath) (s : CrawlState)
    (links : List Link) (hd : 20 ≤ pa.length) (hv : url ∉ s.visited)
    (hlk : pages.lookup url = some (Page.branch links)) :
    ∃ mw, scrape_branch pages site (fuel + 1) url pa cont s =
      { s with visited := s.visited ++ [url], fetchLog := s.fetchLog ++ [url],
               malformedWarnings := s.malformedWarnings ++ mw,
               depthWarnings := s.depthWarnings ++
                 (if depthTrigger (branchStartIdx pa cont) links 0 = true
                  then [url] else []) } := by
  obtain ⟨mw, hmw⟩ := scrapeChildren_depth (scrape_branch pages site fuel) site url pa cont
    (branchStartIdx pa cont) hd links 0
    { s with visited := s.visited ++ [url], fetchLog := s.fetchLog ++ [url] }
  refine ⟨mw, ?_⟩
  rw [scrape_branch, if_neg hv]
  simp only [hlk]
  rw [hmw]

/-- C5 (amended): a branch node entered at a path of length at least 20 is
fetched and marked visited but contributes nothing else — no child is fetched
or recursed into and no record is emitted below it — and the depth warning is
logged iff some child at or past the resume start index survives the
exclusion and malformed-href skip checks (so an all-excluded or childless
deep branch logs no warning); consequently every record emitted by a run has
a lex path of at most 20 elements. -/
theorem depth_ceiling_amended :
    (∀ (pages : List (String × Page)) (site : String) (fuel : Nat) (url : String)
       (pa : LexPath) (cont : Option LexPath) (s : CrawlState) (links : List Link),
       20 ≤ pa.length → url ∉ s.visited →
       pages.lookup url = some (Page.branch links) →
       ∃ mw, scrape_branch pages site (fuel + 1) url pa cont s =
         { s with visited := s.visited ++ [url], fetchLog := s.fetchLog ++ [url],
                  malformedWarnings := s.malformedWarnings ++ mw,
                  depthWarnings := s.depthWarnings ++
                    (if depthTrigger (branchStartIdx pa cont) links 0 = true
                     then [url] else []) }) ∧
    (∀ (pages : List (String × Page)) (stateName : String) (cont : Option LexPath)
       (r : Record),
       r ∈ (collect_regulations_for_state pages stateName cont).records →
       r.lex_path.length ≤ 20) :=
  ⟨fun pages site fuel url pa cont s links hd hv hlk =>
     scrape_branch_depth pages site fuel url pa cont s links hd hv hlk,
   fun pages st cont r hr => collect_reclen pages st cont r hr⟩

/-- Witness for C5 at concrete inputs: the depth-20 branch of the deep-chain
fixture and a record of the one-leaf fixture. -/
theorem depth_ceiling_amended_witness :
    (∃ mw, scrape_branch pagesDeepChain REGULATIONS_BASE_URL 1 (chainUrl 20)
        (List.replicate 20 0) none initState =
      { initState with
          visited := initState.visited ++ [chainUrl 20],
          fetchLog := initState.fetchLog ++ [chainUrl 20],
          malformedWarnings := initState.malformedWarnings ++ mw,
          depthWarnings := initState.depthWarnings ++
            (if depthTrigger (branchStartIdx (List.replicate 20 0) none)
                [⟨"Subchapter (Repealed)", "/x/"⟩] 0 = true
             then [chainUrl 20] else []) }) ∧
    (⟨REGULATIONS_BASE_URL ++ "/a/", [0], "body"⟩ : Record).lex_path.length ≤ 20 :=
  ⟨depth_ceiling_amended.1 pagesDeepChain REGULATIONS_BASE_URL 0 (chainUrl 20)
     (List.replicate 20 0) none initState [⟨"Subchapter (Repealed)", "/x/"⟩]
     (by decide) (by decide) (by decide),
   depth_ceiling_amended.2 pagesOneLeaf "montana" none
     ⟨REGULATIONS_BASE_URL ++ "/a/", [0], "body"⟩ (by decide)⟩

/-! ## Resume correctness on static trees

The plan: `scrape_branch` run on a tree-generated page map with globally
distinct URLs behaves exactly like the pure function `emitsF` (the
simulation lemmas), and `emitsF` with an active cursor equals the cursorless
run filtered to the lex paths strictly after the cursor (the filter
lemmas). -/

theorem lexLt_irrefl : ∀ l : List Nat, lexLt l l = false
  | [] => rfl
  | a :: as => by simp [lexLt, lexLt_irrefl as]

theorem lexLt_append : ∀ (p x y : List Nat), lexLt (p ++ x) (p ++ y) = lexLt x y
  | [], _, _ => rfl
  | a :: p', x, y => by simp [lexLt, lexLt_append p' x y]

theorem lexLt_cons_lt {i k : Nat} (h : i < k) (x y : List Nat) :
    lexLt (i :: x) (k :: y) = true := by simp [lexLt, h]

theorem lexLt_cons_gt {i k : Nat} (h : k < i) (x y : List Nat) :
    lexLt (i :: x) (k :: y) = false := by
  simp [lexLt]
  omega

theorem emitsChildrenF_depthnil
    (recurse : Tree → String → LexPath → Option LexPath → List Record)
    (site : String) (pa : LexPath) (cont : Option LexPath) (startIdx : Nat)
    (hd : 20 ≤ pa.length) :
    ∀ (cs : List (Link × Tree)) (i : Nat),
      emitsChildrenF recurse site pa cont startIdx cs i = []
  | [], _ => rfl
  | c :: rest, i => by
    rw [emitsChildrenF]
    split
    · exact emitsChildrenF_depthnil recurse site pa cont startIdx hd rest (i + 1)
    · split
      · exact emitsChildrenF_depthnil recurse site pa cont startIdx hd rest (i + 1)
      · split
        · exact emitsChildrenF_depthnil recurse site pa cont startIdx hd rest (i + 1)
        · simp [hd]

theorem emitsChildrenF_preIdx
    (recurse : Tree → String → LexPath → Option LexPath → List Record)
    (site : String) (pa : LexPath) (cont : Option LexPath) (startIdx : Nat)
    (hpre : ∀ t' u' (j : Nat) κ r, r ∈ recurse t' u' (pa ++ [j]) κ →
      (pa ++ [j]) <+: r.lex_path) :
    ∀ (cs : List (Link × Tree)) (i : Nat) (r : Record),
      r ∈ emitsChildrenF recurse site pa cont startIdx cs i →
      ∃ j, i ≤ j ∧ (pa ++ [j]) <+: r.lex_path
  | [], _, _, h => by simp [emitsChildrenF] at h
  | c :: rest, i, r, h => by
    rw [emitsChildrenF] at h
    split at h
    · obtain ⟨j, hj, hp⟩ := emitsChildrenF_preIdx recurse site pa cont startIdx hpre rest
        (i + 1) r h
      exact ⟨j, by omega, hp⟩
    · split at h
      · obtain ⟨j, hj, hp⟩ := emitsChildrenF_preIdx recurse site pa cont startIdx hpre rest
          (i + 1) r h
        exact ⟨j, by omega, hp⟩
      · split at h
        · obtain ⟨j, hj, hp⟩ := emitsChildrenF_preIdx recurse site pa cont startIdx hpre rest
            (i + 1) r h
          exact ⟨j, by omega, hp⟩
        · split at h
          · simp at h
          · rcases List.mem_append.mp h with h | h
            · exact ⟨i, le_refl i, hpre _ _ i _ r h⟩
            · obtain ⟨j, hj, hp⟩ := emitsChildrenF_preIdx recurse site pa cont startIdx hpre
                rest (i + 1) r h
              exact ⟨j, by omega, hp⟩

theorem emitsF_pre (site : String) : ∀ (fuel : Nat) (t : Tree) (u : String) (pa : LexPath)
    (κ : Option LexPath) (r : Record), r ∈ emitsF site fuel t u pa κ → pa <+: r.lex_path
  | 0, _, _, _, _, r, h => by simp [emitsF] at h
  | fuel + 1, Tree.leaf content, u, pa, κ, r, h => by
    rw [emitsF] at h
    split at h
    · simp at h
    · rw [List.mem_singleton] at h
      subst h
      exact listPre_refl pa
  | fuel + 1, Tree.branch cs, u, pa, κ, r, h => by
    rw [emitsF] at h
    obtain ⟨j, _, hp⟩ := emitsChildrenF_preIdx (emitsF site fuel) site pa κ
      (branchStartIdx pa κ)
      (fun t' u' j κ' r' h' => emitsF_pre site fuel t' u' (pa ++ [j]) κ' r' h')
      cs 0 r h
    exact listPre_trans (listPre_append pa [j]) hp

theorem emitsChildrenF_decomp
    (recurse : Tree → String → LexPath → Option LexPath → List Record)
    (site : String) (pa : LexPath) (cont : Option LexPath) (startIdx : Nat)
    (hrec : ∀ t' u' (j : Nat) κ r, r ∈ recurse t' u' (pa ++ [j]) κ →
      ∃ q, r.lex_path = (pa ++ [j]) ++ q ∧ leadsToLeaf t' q) :
    ∀ (cs : List (Link × Tree)) (i : Nat) (r : Record),
      r ∈ emitsChildrenF recurse site pa cont startIdx cs i →
      ∃ k c_ q, i ≤ k ∧ cs.get? (k - i) = some c_ ∧
        is_reserved_or_repealed c_.1.text = false ∧ isMalformedHref c_.1.href = false ∧
        leadsToLeaf c_.2 q ∧ r.lex_path = pa ++ (k :: q)
  | [], _, _, h => by simp [emitsChildrenF] at h
  | c :: rest, i, r, h => by
    rw [emitsChildrenF] at h
    have hstep : ∀ (h' : r ∈ emitsChildrenF recurse site pa cont startIdx rest (i + 1)),
        ∃ k c_ q, i ≤ k ∧ (c :: rest).get? (k - i) = some c_ ∧
          is_reserved_or_repealed c_.1.text = false ∧ isMalformedHref c_.1.href = false ∧
          leadsToLeaf c_.2 q ∧ r.lex_path = pa ++ (k :: q) := by
      intro h'
      obtain ⟨k, c_, q, hk, hget, hres, hmal, hlead, hpath⟩ :=
        emitsChildrenF_decomp recurse site pa cont startIdx hrec rest (i + 1) r h'
      refine ⟨k, c_, q, by omega, ?_, hres, hmal, hlead, hpath⟩
      have hki : k - i = (k - (i + 1)) + 1 := by omega
      rw [hki]
      simpa using hget
    by_cases h1 : i < startIdx
    · rw [if_pos h1] at h
      exact hstep h
    · rw [if_neg h1] at h
      by_cases h2 : is_reserved_or_repealed c.1.text = true
      · rw [if_pos h2] at h
        exact hstep h
      · rw [if_neg h2] at h
        by_cases h3 : isMalformedHref c.1.href = true
        · rw [if_pos h3] at h
          exact hstep h
        · rw [if_neg h3] at h
          by_cases h4 : 20 ≤ pa.length
          · rw [if_pos h4] at h
            simp at h
          · rw [if_neg h4] at h
            rcases List.mem_append.mp h with h | h
            · obtain ⟨q, hpath, hlead⟩ := hrec _ _ i _ r h
              refine ⟨i, c, q, le_refl i, by simp, ?_, ?_, hlead, by simpa using hpath⟩
              · simpa using h2
              · simpa using h3
            · exact hstep h

theorem emitsF_decomp (site : String) : ∀ (fuel : Nat) (t : Tree) (u : String)
    (pa : LexPath) (κ : Option LexPath) (r : Record), r ∈ emitsF site fuel t u pa κ →
    ∃ q, r.lex_path = pa ++ q ∧ leadsToLeaf t q
  | 0, _, _, _, _, r, h => by simp [emitsF] at h
  | fuel + 1, Tree.leaf content, u, pa, κ, r, h => by
    rw [emitsF] at h
    split at h
    · simp at h
    · rw [List.mem_singleton] at h
      subst h
      exact ⟨[], by simp, trivial⟩
  | fuel + 1, Tree.branch cs, u, pa, κ, r, h => by
    rw [emitsF] at h
    obtain ⟨k, c_, q, _, hget, hres, hmal, hlead, hpath⟩ :=
      emitsChildrenF_decomp (emitsF site fuel) site pa κ (branchStartIdx pa κ)
        (fun t' u' j κ' r' h' => by
          obtain ⟨q, hp, hl⟩ := emitsF_decomp site fuel t' u' (pa ++ [j]) κ' r' h'
          exact ⟨q, hp, hl⟩)
        cs 0 r h
    refine ⟨k :: q, hpath, ?_⟩
    show leadsToLeaf (Tree.branch cs) (k :: q)
    rw [leadsToLeaf]
    exact ⟨c_, by simpa using hget, hres, hmal, hlead⟩

theorem cursorActive_of_ne {c : LexPath} (hc : c ≠ []) : cursorActive (some c) = true := by
  cases c
  · exact absurd rfl hc
  · rfl

theorem branchStartIdx_none (pa : LexPath) : branchStartIdx pa none = 0 := by
  simp [branchStartIdx, cursorActive]

theorem notpre_ext {pa c : LexPath} (h : pa ≠ c.take pa.length) (j : Nat) :
    pa ++ [j] ≠ c.take (pa ++ [j]).length := by
  intro heq
  apply h
  have h1 := congrArg (fun x => List.take pa.length x) heq
  simp only at h1
  rw [List.take_left' (by rfl : pa.length = pa.length)] at h1
  rw [List.take_take] at h1
  have hmin : min pa.length (pa ++ [j]).length = pa.length := by simp
  rw [hmin] at h1
  exact h1

theorem emitsChildrenF_eqcursor
    (recurse : Tree → String → LexPath → Option LexPath → List Record)
    (site : String) (pa : LexPath) (c : LexPath) (hc : c ≠ [])
    (hrec : ∀ t' u' (j : Nat),
      recurse t' u' (pa ++ [j]) (some c) = recurse t' u' (pa ++ [j]) none) :
    ∀ (cs : List (Link × Tree)) (i : Nat),
      emitsChildrenF recurse site pa (some c) 0 cs i =
        emitsChildrenF recurse site pa none 0 cs i
  | [], _ => rfl
  | ch :: rest, i => by
    rw [emitsChildrenF, emitsChildrenF]
    have h0 : ¬ i < 0 := by omega
    rw [if_neg h0, if_neg h0]
    by_cases h2 : is_reserved_or_repealed ch.1.text = true
    · rw [if_pos h2, if_pos h2]
      exact emitsChildrenF_eqcursor recurse site pa c hc hrec rest (i + 1)
    · rw [if_neg h2, if_neg h2]
      by_cases h3 : isMalformedHref ch.1.href = true
      · rw [if_pos h3, if_pos h3]
        exact emitsChildrenF_eqcursor recurse site pa c hc hrec rest (i + 1)
      · rw [if_neg h3, if_neg h3]
        by_cases h4 : 20 ≤ pa.length
        · rw [if_pos h4, if_pos h4]
        · rw [if_neg h4, if_neg h4]
          have hnone : (if cursorActive none = true ∧ 0 < i then none else
              (none : Option LexPath)) = none := by
            split <;> rfl
          rw [hnone, emitsChildrenF_eqcursor recurse site pa c hc hrec rest (i + 1)]
          by_cases h5 : cursorActive (some c) = true ∧ 0 < i
          · rw [if_pos h5]
          · rw [if_neg h5, hrec]

theorem emitsF_below (site : String) : ∀ (fuel : Nat) (t : Tree) (u : String)
    (pa : LexPath) (c : LexPath), c ≠ [] → pa ≠ c.take pa.length →
    emitsF site fuel t u pa (some c) = emitsF site fuel t u pa none
  | 0, _, _, _, _, _, _ => rfl
  | fuel + 1, Tree.leaf content, u, pa, c, hc, hpa => by
    rw [emitsF, emitsF]
    rw [if_neg, if_neg]
    · rintro ⟨hact, -⟩
      simp [cursorActive] at hact
    · rintro ⟨-, hpc⟩
      apply hpa
      have : pa = c := hpc
      rw [this]
      rw [List.take_of_length_le (le_refl c.length)]
  | fuel + 1, Tree.branch cs, u, pa, c, hc, hpa => by
    rw [emitsF, emitsF]
    have hstart : branchStartIdx pa (some c) = 0 := by
      unfold branchStartIdx
      rw [if_neg]
      rintro ⟨-, hpc⟩
      exact hpa (by simpa [contList] using hpc)
    rw [hstart, branchStartIdx_none]
    exact emitsChildrenF_eqcursor (emitsF site fuel) site pa c hc
      (fun t' u' j => emitsF_below site fuel t' u' (pa ++ [j]) c hc (notpre_ext hpa j))
      cs 0

theorem emitsChildrenF_after_eq
    (recurse : Tree → String → LexPath → Option LexPath → List Record)
    (site : String) (pa : LexPath) (c : LexPath) (k : Nat)
    (hc : cursorActive (some c) = true) :
    ∀ (cs : List (Link × Tree)) (i : Nat), k < i →
      emitsChildrenF recurse site pa (some c) k cs i =
        emitsChildrenF recurse site pa none 0 cs i
  | [], _, _ => rfl
  | ch :: rest, i, hki => by
    rw [emitsChildrenF, emitsChildrenF]
    rw [if_neg (by omega : ¬ i < k), if_neg (by omega : ¬ i < 0)]
    by_cases h2 : is_reserved_or_repealed ch.1.text = true
    · rw [if_pos h2, if_pos h2]
      exact emitsChildrenF_after_eq recurse site pa c k hc rest (i + 1) (by omega)
    · rw [if_neg h2, if_neg h2]
      by_cases h3 : isMalformedHref ch.1.href = true
      · rw [if_pos h3, if_pos h3]
        exact emitsChildrenF_after_eq recurse site pa c k hc rest (i + 1) (by omega)
      · rw [if_neg h3, if_neg h3]
        by_cases h4 : 20 ≤ pa.length
        · rw [if_pos h4, if_pos h4]
        · rw [if_neg h4, if_neg h4]
          rw [if_pos ⟨hc, by omega⟩]
          have hnone : (if cursorActive none = true ∧ 0 < i then none else
              (none : Option LexPath)) = none := by
            split <;> rfl
          rw [hnone]
          rw [emitsChildrenF_after_eq recurse site pa c k hc rest (i + 1) (by omega)]

theorem lexLt_after {pa c : LexPath} {k j : Nat} {rest' : LexPath}
    (hceq : c = pa ++ k :: rest') (hkj : k < j) {q : LexPath}
    (hp : (pa ++ [j]) <+: q) : lexLt c q = true := by
  obtain ⟨t, rfl⟩ := hp
  rw [hceq]
  have : (pa ++ [j]) ++ t = pa ++ (j :: t) := by simp
  rw [this, lexLt_append]
  exact lexLt_cons_lt hkj rest' t

theorem lexLt_before {pa c : LexPath} {k j : Nat} {rest' : LexPath}
    (hceq : c = pa ++ k :: rest') (hjk : j < k) {q : LexPath}
    (hp : (pa ++ [j]) <+: q) : lexLt c q = false := by
  obtain ⟨t, rfl⟩ := hp
  rw [hceq]
  have : (pa ++ [j]) ++ t = pa ++ (j :: t) := by simp
  rw [this, lexLt_append]
  exact lexLt_cons_gt hjk rest' t

theorem emitsChildrenF_after_filter
    (recurse : Tree → String → LexPath → Option LexPath → List Record)
    (site : String) (pa : LexPath) (c : LexPath) (k : Nat) (rest' : LexPath)
    (hceq : c = pa ++ k :: rest')
    (hpre : ∀ t' u' (j : Nat) κ r, r ∈ recurse t' u' (pa ++ [j]) κ →
      (pa ++ [j]) <+: r.lex_path)
    (cs : List (Link × Tree)) (i : Nat) (hki : k < i) :
    (emitsChildrenF recurse site pa none 0 cs i).filter
      (fun r => lexLt c r.lex_path) = emitsChildrenF recurse site pa none 0 cs i := by
  rw [List.filter_eq_self]
  intro r hr
  obtain ⟨j, hij, hp⟩ := emitsChildrenF_preIdx recurse site pa none 0 hpre cs i r hr
  exact lexLt_after hceq (by omega) hp

theorem emitsChildrenF_phase
    (recurse : Tree → String → LexPath → Option LexPath → List Record)
    (site : String) (pa : LexPath) (c : LexPath) (k : Nat) (rest' : LexPath)
    (hceq : c = pa ++ k :: rest') (hdep : pa.length < 20)
    (hpre : ∀ t' u' (j : Nat) κ r, r ∈ recurse t' u' (pa ++ [j]) κ →
      (pa ++ [j]) <+: r.lex_path) :
    ∀ (cs : List (Link × Tree)) (i : Nat), i ≤ k →
      (∀ c_, cs.get? (k - i) = some c_ →
        is_reserved_or_repealed c_.1.text = false ∧ isMalformedHref c_.1.href = false) →
      (∀ c_, cs.get? (k - i) = some c_ →
        recurse c_.2 (site ++ c_.1.href) (pa ++ [k]) (some c) =
          (recurse c_.2 (site ++ c_.1.href) (pa ++ [k]) none).filter
            (fun r => lexLt c r.lex_path)) →
      emitsChildrenF recurse site pa (some c) k cs i =
        (emitsChildrenF recurse site pa none 0 cs i).filter (fun r => lexLt c r.lex_path)
  | [], _, _, _, _ => rfl
  | ch :: rest, i, hik, hclean, hkchild => by
    have hcact : cursorActive (some c) = true :=
      cursorActive_of_ne (by rw [hceq]; simp)
    have hshift : i < k → ∀ P : (Link × Tree) → Prop,
        (∀ c_, (ch :: rest).get? (k - i) = some c_ → P c_) →
        (∀ c_, rest.get? (k - (i + 1)) = some c_ → P c_) := by
      intro hik' P hP c_ hget
      apply hP
      have hki : k - i = (k - (i + 1)) + 1 := by omega
      rw [hki]
      simpa using hget
    rw [emitsChildrenF, emitsChildrenF]
    rw [if_neg (by omega : ¬ i < 0)]
    by_cases hik' : i < k
    · rw [if_pos hik']
      by_cases h2 : is_reserved_or_repealed ch.1.text = true
      · rw [if_pos h2]
        exact emitsChildrenF_phase recurse site pa c k rest' hceq hdep hpre rest (i + 1)
          (by omega) (hshift hik' _ hclean) (hshift hik' _ hkchild)
      · rw [if_neg h2]
        by_cases h3 : isMalformedHref ch.1.href = true
        · rw [if_pos h3]
          exact emitsChildrenF_phase recurse site pa c k rest' hceq hdep hpre rest (i + 1)
            (by omega) (hshift hik' _ hclean) (hshift hik' _ hkchild)
        · rw [if_neg h3, if_neg (by omega : ¬ 20 ≤ pa.length)]
          rw [List.filter_append]
          have hdropped : (recurse ch.2 (site ++ ch.1.href) (pa ++ [i])
              (if cursorActive none = true ∧ 0 < i then none else none)).filter
                (fun r => lexLt c r.lex_path) = [] := by
            rw [List.filter_eq_nil]
            intro r hr
            rw [lexLt_before hceq hik' (hpre _ _ i _ r hr)]
            simp
          rw [hdropped, List.nil_append]
          exact emitsChildrenF_phase recurse site pa c k rest' hceq hdep hpre rest (i + 1)
            (by omega) (hshift hik' _ hclean) (hshift hik' _ hkchild)
    · have hik0 : i = k := by omega
      subst hik0
      have hget : (ch :: rest).get? (i - i) = some ch := by simp
      obtain ⟨hres, hmal⟩ := hclean ch hget
      have hii : ¬ (i < i) := by omega
      have hres' : ¬ (is_reserved_or_repealed ch.1.text = true) := by simp [hres]
      have hmal' : ¬ (isMalformedHref ch.1.href = true) := by simp [hmal]
      have hdep' : ¬ (20 ≤ pa.length) := by omega
      have hcur : ¬ (cursorActive (some c) = true ∧ i < i) := by rintro ⟨-, hlt⟩; omega
      rw [if_neg hii, if_neg hres', if_neg hres', if_neg hmal', if_neg hmal',
        if_neg hdep', if_neg hdep']
      rw [List.filter_append]
      rw [if_neg hcur]
      have hnone : (if cursorActive none = true ∧ 0 < i then none else
          (none : Option LexPath)) = none := by
        split <;> rfl
      rw [hnone]
      rw [hkchild ch hget]
      rw [emitsChildrenF_after_eq recurse site pa c i hcact rest (i + 1) (by omega)]
      rw [emitsChildrenF_after_filter recurse site pa c i rest' hceq hpre rest (i + 1)
        (by omega)]

theorem emitsF_filter (site : String) : ∀ (fuel : Nat) (t : Tree) (u : String)
    (pa : LexPath) (c : LexPath), c ≠ [] → pa = c.take pa.length →
    leadsToLeaf t (c.drop pa.length) →
    emitsF site fuel t u pa (some c) =
      (emitsF site fuel t u pa none).filter (fun r => lexLt c r.lex_path)
  | 0, _, _, _, _, _, _, _ => rfl
  | fuel + 1, Tree.leaf content, u, pa, c, hc, hpa, hlead => by
    rcases hdrop : c.drop pa.length with _ | ⟨k, rest'⟩
    · have hpc : pa = c := by
        rw [hpa]
        have hle : c.length ≤ pa.length := by rwa [List.drop_eq_nil_iff] at hdrop
        rw [List.take_of_length_le hle]
      rw [emitsF, emitsF]
      rw [if_pos ⟨cursorActive_of_ne hc, by simpa [contList] using hpc⟩]
      rw [if_neg (by rintro ⟨hact, -⟩; simp [cursorActive] at hact)]
      have : lexLt c pa = false := by
        rw [hpc]
        exact lexLt_irrefl c
      simp [this]
    · rw [hdrop] at hlead
      simp [leadsToLeaf] at hlead
  | fuel + 1, Tree.branch cs, u, pa, c, hc, hpa, hlead => by
    rcases hdrop : c.drop pa.length with _ | ⟨k, rest'⟩
    · rw [hdrop] at hlead
      simp [leadsToLeaf] at hlead
    · have hceq : c = pa ++ k :: rest' := by
        conv_lhs => rw [← List.take_append_drop pa.length c]
        rw [← hpa, hdrop]
      have hceq2 : c = (pa ++ [k]) ++ rest' := by
        rw [hceq]
        simp
      rw [hdrop] at hlead
      rw [leadsToLeaf] at hlead
      obtain ⟨c0, hget0, hres0, hmal0, hlead0⟩ := hlead
      by_cases hdep : 20 ≤ pa.length
      · rw [emitsF, emitsF]
        rw [emitsChildrenF_depthnil _ site pa _ _ hdep, emitsChildrenF_depthnil _ site pa _ _ hdep]
        rfl
      · rw [emitsF, emitsF]
        have hlen : pa.length < c.length := by
          by_contra hx
          rw [List.drop_eq_nil_iff.mpr (by omega)] at hdrop
          exact absurd hdrop (by simp)
        have hstart : branchStartIdx pa (some c) = k := by
          unfold branchStartIdx
          rw [if_pos ⟨cursorActive_of_ne hc, by simpa [contList] using hpa⟩]
          rw [if_pos (by simpa [contList] using hlen)]
          show c.getD pa.length 0 = k
          rw [hceq, List.getD_append_right _ _ _ _ (le_refl pa.length)]
          simp
        rw [hstart, branchStartIdx_none]
        apply emitsChildrenF_phase (emitsF site fuel) site pa c k rest' hceq (by omega)
          (fun t' u' j κ r hr => emitsF_pre site fuel t' u' (pa ++ [j]) κ r hr)
          cs 0 (by omega)
        · intro c_ hget
          rw [Nat.sub_zero] at hget
          rw [hget0] at hget
          obtain rfl : c0 = c_ := by injection hget
          exact ⟨hres0, hmal0⟩
        · intro c_ hget
          rw [Nat.sub_zero] at hget
          rw [hget0] at hget
          obtain rfl : c0 = c_ := by injection hget
          apply emitsF_filter site fuel c0.2 (site ++ c0.1.href) (pa ++ [k]) c hc
          · rw [hceq2, List.take_left' (by simp)]
          · rw [hceq2, List.drop_left' (by simp)]
            exact hlead0

theorem jobsEmitsF_pre (site : String) (fuel : Nat) (cont : Option LexPath) (startB : Nat) :
    ∀ (cs : List (Link × Tree)) (i : Nat) (r : Record),
      r ∈ jobsEmitsF site fuel cont startB cs i → ∃ j, i ≤ j ∧ [j] <+: r.lex_path
  | [], _, _, h => by simp [jobsEmitsF] at h
  | ch :: rest, i, r, h => by
    rw [jobsEmitsF] at h
    by_cases h1 : i < startB
    · rw [if_pos h1] at h
      obtain ⟨j, hij, hp⟩ := jobsEmitsF_pre site fuel cont startB rest (i + 1) r h
      exact ⟨j, by omega, hp⟩
    · rw [if_neg h1] at h
      rw [List.mem_append] at h
      rcases h with h | h
      · exact ⟨i, le_refl i, emitsF_pre site fuel ch.2 (site ++ ch.1.href) [i] _ r h⟩
      · obtain ⟨j, hij, hp⟩ := jobsEmitsF_pre site fuel cont startB rest (i + 1) r h
        exact ⟨j, by omega, hp⟩

theorem jobsEmitsF_after_eq (site : String) (fuel : Nat) (c : LexPath) (k : Nat)
    (hc : c ≠ []) :
    ∀ (cs : List (Link × Tree)) (i : Nat), k < i →
      jobsEmitsF site fuel (some c) k cs i = jobsEmitsF site fuel none 0 cs i
  | [], _, _ => rfl
  | ch :: rest, i, hki => by
    rw [jobsEmitsF, jobsEmitsF]
    have h1 : ¬ (i < k) := by omega
    have h2 : ¬ (i < 0) := by omega
    rw [if_neg h1, if_neg h2]
    have h3 : (if i = k ∧ cursorActive (some c) = true then some c else none) =
        (none : Option LexPath) := by
      rw [if_neg]
      rintro ⟨he, -⟩
      omega
    have h4 : (if i = 0 ∧ cursorActive none = true then none else none) =
        (none : Option LexPath) := by
      split <;> rfl
    rw [h3, h4, jobsEmitsF_after_eq site fuel c k hc rest (i + 1) (by omega)]

theorem jobsEmitsF_after_filter (site : String) (fuel : Nat) (c : LexPath) (k : Nat)
    (rest' : LexPath) (hceq : c = k :: rest') (cs : List (Link × Tree)) (i : Nat)
    (hki : k < i) :
    (jobsEmitsF site fuel none 0 cs i).filter (fun r => lexLt c r.lex_path) =
      jobsEmitsF site fuel none 0 cs i := by
  rw [List.filter_eq_self]
  intro r hr
  obtain ⟨j, hij, hp⟩ := jobsEmitsF_pre site fuel none 0 cs i r hr
  exact @lexLt_after [] c k j rest' hceq (by omega) r.lex_path hp

theorem jobsEmitsF_phase (site : String) (fuel : Nat) (c : LexPath) (k : Nat)
    (rest' : LexPath) (hceq : c = k :: rest') :
    ∀ (cs : List (Link × Tree)) (i : Nat), i ≤ k →
      (∀ c_, cs.get? (k - i) = some c_ →
        emitsF site fuel c_.2 (site ++ c_.1.href) [k] (some c) =
          (emitsF site fuel c_.2 (site ++ c_.1.href) [k] none).filter
            (fun r => lexLt c r.lex_path)) →
      jobsEmitsF site fuel (some c) k cs i =
        (jobsEmitsF site fuel none 0 cs i).filter (fun r => lexLt c r.lex_path)
  | [], _, _, _ => rfl
  | ch :: rest, i, hik, hkchild => by
    have hc : c ≠ [] := by rw [hceq]; simp
    rw [jobsEmitsF, jobsEmitsF]
    have h2 : ¬ (i < 0) := by omega
    rw [if_neg h2]
    have h4 : (if i = 0 ∧ cursorActive none = true then none else none) =
        (none : Option LexPath) := by
      split <;> rfl
    rw [h4]
    by_cases h1 : i < k
    · rw [if_pos h1, List.filter_append]
      have hdead : (emitsF site fuel ch.2 (site ++ ch.1.href) [i] none).filter
          (fun r => lexLt c r.lex_path) = [] := by
        rw [List.filter_eq_nil]
        intro r hr
        have hp := emitsF_pre site fuel ch.2 (site ++ ch.1.href) [i] none r hr
        rw [@lexLt_before [] c k i rest' hceq h1 r.lex_path hp]
        simp
      rw [hdead, List.nil_append]
      apply jobsEmitsF_phase site fuel c k rest' hceq rest (i + 1) (by omega)
      intro c_ hgetr
      apply hkchild
      have hki2 : k - i = (k - (i + 1)) + 1 := by omega
      rw [hki2]
      simpa using hgetr
    · have hik0 : i = k := by omega
      subst hik0
      rw [if_neg (Nat.lt_irrefl i)]
      have h3 : (if i = i ∧ cursorActive (some c) = true then some c else none) = some c := by
        rw [if_pos ⟨rfl, cursorActive_of_ne hc⟩]

      rw [h3, List.filter_append]
      have hget : (ch :: rest).get? (i - i) = some ch := by simp
      rw [hkchild ch hget]
      rw [jobsEmitsF_after_eq site fuel c i hc rest (i + 1) (by omega)]
      rw [jobsEmitsF_after_filter site fuel c i rest' hceq rest (i + 1) (by omega)]

theorem collectEmitsF_filter (fuel : Nat) (t : Tree) (c : LexPath)
    (hc : c ≠ []) (hlead : leadsToLeafTop t c) :
    collectEmitsF fuel t (some c) =
      (collectEmitsF fuel t none).filter (fun r => lexLt c r.lex_path) := by
  rcases c with _ | ⟨k, rest'⟩
  · exact absurd rfl hc
  rcases t with content | cs
  · simp only [leadsToLeafTop] at hlead
  obtain ⟨c0, hget0, hlead0⟩ := hlead
  rw [collectEmitsF, collectEmitsF]
  have hstart : (if cursorActive (some (k :: rest')) = true
      then (contList (some (k :: rest'))).headD 0 else 0) = k := by
    rw [if_pos (cursorActive_of_ne (by simp))]
    rfl
  have hstart0 : (if cursorActive (none : Option LexPath) = true
      then (contList none).headD 0 else 0) = 0 := by
    simp [cursorActive]
  rw [hstart, hstart0]
  apply jobsEmitsF_phase REGULATIONS_BASE_URL fuel (k :: rest') k rest' rfl
    (cs.filter (fun c_ => !is_reserved_or_repealed c_.1.text)) 0 (by omega)
  intro c_ hget
  rw [Nat.sub_zero] at hget
  rw [hget0] at hget
  obtain rfl : c0 = c_ := by injection hget
  apply emitsF_filter REGULATIONS_BASE_URL fuel c0.2 (REGULATIONS_BASE_URL ++ c0.1.href)
    [k] (k :: rest') (by simp) rfl
  exact hlead0

theorem scrapeChildren_sim (pages : List (String × Page)) (site url : String)
    (recurse : String → LexPath → Option LexPath → CrawlState → CrawlState)
    (emitrec : Tree → String → LexPath → Option LexPath → List Record)
    (pa : LexPath) (cont : Option LexPath) (startIdx : Nat)
    (hrec : ∀ (t' : Tree) (u' : String) (pa' : LexPath) (κ : Option LexPath)
      (s : CrawlState),
      (∀ pr ∈ treePages site t' u', pages.lookup pr.1 = some pr.2) →
      ((treePages site t' u').map Prod.fst).Nodup →
      (∀ x ∈ (treePages site t' u').map Prod.fst, x ∉ s.visited) →
      ∃ vs, (∀ x ∈ vs, x ∈ (treePages site t' u').map Prod.fst) ∧
        (recurse u' pa' κ s).visited = s.visited ++ vs ∧
        (recurse u' pa' κ s).records = s.records ++ emitrec t' u' pa' κ) :
    ∀ (cs : List (Link × Tree)) (i : Nat) (s : CrawlState),
      (∀ pr ∈ treePagesList site cs, pages.lookup pr.1 = some pr.2) →
      ((treePagesList site cs).map Prod.fst).Nodup →
      (∀ x ∈ (treePagesList site cs).map Prod.fst, x ∉ s.visited) →
      ∃ vs, (∀ x ∈ vs, x ∈ (treePagesList site cs).map Prod.fst) ∧
        (scrapeChildren recurse site url pa cont startIdx (branchLinks cs) i s).visited =
          s.visited ++ vs ∧
        (scrapeChildren recurse site url pa cont startIdx (branchLinks cs) i s).records =
          s.records ++ emitsChildrenF emitrec site pa cont startIdx cs i
  | [], i, s, _, _, _ =>
    ⟨[], fun x hx => absurd hx (List.not_mem_nil x),
      by simp [branchLinks, scrapeChildren],
      by simp [branchLinks, scrapeChildren, emitsChildrenF]⟩
  | ch :: rest, i, s, H1, Hnd, Hdis => by
    have hsplit : treePagesList site (ch :: rest) =
        treePages site ch.2 (site ++ ch.1.href) ++ treePagesList site rest := by
      rw [treePagesList]
    have H1c : ∀ pr ∈ treePages site ch.2 (site ++ ch.1.href),
        pages.lookup pr.1 = some pr.2 :=
      fun pr hpr => H1 pr (by rw [hsplit]; exact List.mem_append_left _ hpr)
    have H1r : ∀ pr ∈ treePagesList site rest, pages.lookup pr.1 = some pr.2 :=
      fun pr hpr => H1 pr (by rw [hsplit]; exact List.mem_append_right _ hpr)
    rw [hsplit, List.map_append] at Hnd Hdis
    obtain ⟨hndc, hndr, hdisj⟩ := List.nodup_append.mp Hnd
    have Hdisc : ∀ x ∈ (treePages site ch.2 (site ++ ch.1.href)).map Prod.fst,
        x ∉ s.visited := fun x hx => Hdis x (List.mem_append_left _ hx)
    have Hdisr : ∀ x ∈ (treePagesList site rest).map Prod.fst, x ∉ s.visited :=
      fun x hx => Hdis x (List.mem_append_right _ hx)
    have hbl : branchLinks (ch :: rest) = ch.1 :: branchLinks rest := rfl
    rw [hbl, scrapeChildren, emitsChildrenF]
    by_cases h1 : i < startIdx
    · rw [if_pos h1, if_pos h1]
      obtain ⟨vs, hmem, hvis, hrecs⟩ := scrapeChildren_sim pages site url recurse emitrec
        pa cont startIdx hrec rest (i + 1) s H1r hndr Hdisr
      exact ⟨vs, fun x hx => by
        rw [hsplit, List.map_append]
        exact List.mem_append_right _ (hmem x hx), hvis, hrecs⟩
    · rw [if_neg h1, if_neg h1]
      by_cases h2 : is_reserved_or_repealed ch.1.text = true
      · rw [if_pos h2, if_pos h2]
        obtain ⟨vs, hmem, hvis, hrecs⟩ := scrapeChildren_sim pages site url recurse emitrec
          pa cont startIdx hrec rest (i + 1) s H1r hndr Hdisr
        exact ⟨vs, fun x hx => by
          rw [hsplit, List.map_append]
          exact List.mem_append_right _ (hmem x hx), hvis, hrecs⟩
      · rw [if_neg h2, if_neg h2]
        by_cases h3 : isMalformedHref ch.1.href = true
        · rw [if_pos h3, if_pos h3]
          obtain ⟨vs, hmem, hvis, hrecs⟩ := scrapeChildren_sim pages site url recurse emitrec
            pa cont startIdx hrec rest (i + 1)
            { s with malformedWarnings := s.malformedWarnings ++ [site ++ ch.1.href] }
            H1r hndr (fun x hx => Hdisr x hx)
          exact ⟨vs, fun x hx => by
            rw [hsplit, List.map_append]
            exact List.mem_append_right _ (hmem x hx), hvis, hrecs⟩
        · rw [if_neg h3, if_neg h3]
          by_cases h4 : 20 ≤ pa.length
          · rw [if_pos h4, if_pos h4]
            refine ⟨[], fun x hx => absurd hx (List.not_mem_nil x), ?_, ?_⟩ <;> simp
          · rw [if_neg h4, if_neg h4]
            obtain ⟨vs1, hmem1, hvis1, hrecs1⟩ := hrec ch.2 (site ++ ch.1.href) (pa ++ [i])
              (if cursorActive cont = true ∧ startIdx < i then none else cont) s
              H1c hndc Hdisc
            have Hdisr1 : ∀ x ∈ (treePagesList site rest).map Prod.fst,
                x ∉ (recurse (site ++ ch.1.href) (pa ++ [i])
                  (if cursorActive cont = true ∧ startIdx < i then none else cont)
                  s).visited := by
              intro x hx hxv
              rw [hvis1] at hxv
              rcases List.mem_append.mp hxv with h | h
              · exact Hdisr x hx h
              · exact hdisj (hmem1 x h) hx
            obtain ⟨vs2, hmem2, hvis2, hrecs2⟩ := scrapeChildren_sim pages site url recurse
              emitrec pa cont startIdx hrec rest (i + 1)
              (recurse (site ++ ch.1.href) (pa ++ [i])
                (if cursorActive cont = true ∧ startIdx < i then none else cont) s)
              H1r hndr Hdisr1
            refine ⟨vs1 ++ vs2, ?_, ?_, ?_⟩
            · intro x hx
              rw [hsplit, List.map_append, List.mem_append]
              rcases List.mem_append.mp hx with h | h
              · exact Or.inl (hmem1 x h)
              · exact Or.inr (hmem2 x h)
            · show (scrapeChildren recurse site url pa cont startIdx (branchLinks rest)
                  (i + 1) (recurse (site ++ ch.1.href) (pa ++ [i])
                    (if cursorActive cont = true ∧ startIdx < i then none else cont)
                    s)).visited = s.visited ++ (vs1 ++ vs2)
              rw [hvis2, hvis1, List.append_assoc]
            · show (scrapeChildren recurse site url pa cont startIdx (branchLinks rest)
                  (i + 1) (recurse (site ++ ch.1.href) (pa ++ [i])
                    (if cursorActive cont = true ∧ startIdx < i then none else cont)
                    s)).records = s.records ++
                  (emitrec ch.2 (site ++ ch.1.href) (pa ++ [i])
                    (if cursorActive cont = true ∧ startIdx < i then none else cont) ++
                  emitsChildrenF emitrec site pa cont startIdx rest (i + 1))
              rw [hrecs2, hrecs1, List.append_assoc]

theorem scrape_sim (pages : List (String × Page)) (site : String) :
    ∀ (fuel : Nat) (t : Tree) (u : String) (pa : LexPath) (cont : Option LexPath)
      (s : CrawlState),
      (∀ pr ∈ treePages site t u, pages.lookup pr.1 = some pr.2) →
      ((treePages site t u).map Prod.fst).Nodup →
      (∀ x ∈ (treePages site t u).map Prod.fst, x ∉ s.visited) →
      ∃ vs, (∀ x ∈ vs, x ∈ (treePages site t u).map Prod.fst) ∧
        (scrape_branch pages site fuel u pa cont s).visited = s.visited ++ vs ∧
        (scrape_branch pages site fuel u pa cont s).records =
          s.records ++ emitsF site fuel t u pa cont
  | 0, t, u, pa, cont, s, _, _, _ =>
    ⟨[], fun x hx => absurd hx (List.not_mem_nil x),
      by simp [scrape_branch], by simp [scrape_branch, emitsF]⟩
  | fuel + 1, Tree.leaf content, u, pa, cont, s, H1, Hnd, Hdis => by
    have hu : u ∉ s.visited := Hdis u (by simp [treePages])
    have hlk : pages.lookup u = some (Page.leaf content) :=
      H1 (u, Page.leaf content) (by simp [treePages])
    rw [scrape_branch, if_neg hu]
    simp only [hlk]
    rw [emitsF]
    by_cases hcur : cursorActive cont = true ∧ pa = contList cont
    · rw [if_pos hcur, if_pos hcur]
      refine ⟨[u], ?_, ?_, ?_⟩
      · intro x hx
        rw [List.mem_singleton] at hx
        subst hx
        simp [treePages]
      · rfl
      · simp
    · rw [if_neg hcur, if_neg hcur]
      unfold process_regulation_leaf
      simp only [hlk]
      refine ⟨[u], ?_, ?_, ?_⟩
      · intro x hx
        rw [List.mem_singleton] at hx
        subst hx
        simp [treePages]
      · rfl
      · trivial
  | fuel + 1, Tree.branch cs, u, pa, cont, s, H1, Hnd, Hdis => by
    have hsplit : treePages site (Tree.branch cs) u =
        (u, Page.branch (branchLinks cs)) :: treePagesList site cs := by rw [treePages]
    have hu : u ∉ s.visited := Hdis u (by rw [hsplit]; simp)
    have hlk : pages.lookup u = some (Page.branch (branchLinks cs)) :=
      H1 (u, Page.branch (branchLinks cs)) (by rw [hsplit]; simp)
    rw [scrape_branch, if_neg hu]
    simp only [hlk]
    rw [emitsF]
    rw [hsplit, List.map_cons] at Hnd Hdis
    have hndl := (List.nodup_cons.mp Hnd).2
    have hunotin := (List.nodup_cons.mp Hnd).1
    have H1l : ∀ pr ∈ treePagesList site cs, pages.lookup pr.1 = some pr.2 :=
      fun pr hpr => H1 pr (by rw [hsplit]; exact List.mem_cons_of_mem _ hpr)
    have Hdisl : ∀ x ∈ (treePagesList site cs).map Prod.fst,
        x ∉ ({ s with visited := s.visited ++ [u], fetchLog := s.fetchLog ++ [u] } : CrawlState).visited := by
      intro x hx hxv
      rcases List.mem_append.mp hxv with h | h
      · exact Hdis x (List.mem_cons_of_mem _ hx) h
      · rw [List.mem_singleton] at h
        exact hunotin (h ▸ hx)
    obtain ⟨vs, hmem, hvis, hrecs⟩ := scrapeChildren_sim pages site u
      (scrape_branch pages site fuel) (emitsF site fuel) pa cont (branchStartIdx pa cont)
      (fun t' u' pa' κ s' => scrape_sim pages site fuel t' u' pa' κ s') cs 0
      { s with visited := s.visited ++ [u], fetchLog := s.fetchLog ++ [u] }
      H1l hndl Hdisl
    refine ⟨u :: vs, ?_, ?_, ?_⟩
    · intro x hx
      rw [hsplit, List.map_cons]
      rcases List.mem_cons.mp hx with h | h
      · exact h ▸ List.mem_cons_self _ _
      · exact List.mem_cons_of_mem _ (hmem x h)
    · rw [hvis]
      show (s.visited ++ [u]) ++ vs = s.visited ++ (u :: vs)
      simp
    · exact hrecs

theorem branchLinks_filter : ∀ cs : List (Link × Tree),
    (branchLinks cs).filter (fun l => !is_reserved_or_repealed l.text) =
      branchLinks (cs.filter (fun c_ => !is_reserved_or_repealed c_.1.text))
  | [] => rfl
  | c :: rest => by
    simp only [branchLinks, List.map_cons, List.filter_cons]
    by_cases h : (!is_reserved_or_repealed c.1.text) = true
    · rw [if_pos h, if_pos h, List.map_cons]
      have := branchLinks_filter rest
      simp only [branchLinks] at this
      rw [this]
    · rw [if_neg h, if_neg h]
      have := branchLinks_filter rest
      simp only [branchLinks] at this
      rw [this]

theorem treePagesList_filter_sublist (site : String) (p : Link × Tree → Bool) :
    ∀ cs : List (Link × Tree),
      (treePagesList site (cs.filter p)).Sublist (treePagesList site cs)
  | [] => List.Sublist.refl _
  | c :: rest => by
    rw [List.filter_cons]
    by_cases h : p c = true
    · rw [if_pos h, treePagesList, treePagesList]
      exact (treePagesList_filter_sublist site p rest).append_left _
    · rw [if_neg h, treePagesList]
      exact (treePagesList_filter_sublist site p rest).trans
        (List.sublist_append_right _ _)

theorem runJobs_sim (pages : List (String × Page)) (site : String) (fuel : Nat)
    (cont : Option LexPath) (startB : Nat) :
    ∀ (cs : List (Link × Tree)) (i : Nat) (s : CrawlState),
      (∀ pr ∈ treePagesList site cs, pages.lookup pr.1 = some pr.2) →
      ((treePagesList site cs).map Prod.fst).Nodup →
      (∀ x ∈ (treePagesList site cs).map Prod.fst, x ∉ s.visited) →
      ∃ vs, (∀ x ∈ vs, x ∈ (treePagesList site cs).map Prod.fst) ∧
        (runJobs pages site fuel (mkJobs cont startB (branchLinks cs) i) s).visited =
          s.visited ++ vs ∧
        (runJobs pages site fuel (mkJobs cont startB (branchLinks cs) i) s).records =
          s.records ++ jobsEmitsF site fuel cont startB cs i
  | [], i, s, _, _, _ =>
    ⟨[], fun x hx => absurd hx (List.not_mem_nil x),
      by simp [branchLinks, mkJobs, runJobs],
      by simp [branchLinks, mkJobs, runJobs, jobsEmitsF]⟩
  | ch :: rest, i, s, H1, Hnd, Hdis => by
    have hsplit : treePagesList site (ch :: rest) =
        treePages site ch.2 (site ++ ch.1.href) ++ treePagesList site rest := by
      rw [treePagesList]
    have H1c : ∀ pr ∈ treePages site ch.2 (site ++ ch.1.href),
        pages.lookup pr.1 = some pr.2 :=
      fun pr hpr => H1 pr (by rw [hsplit]; exact List.mem_append_left _ hpr)
    have H1r : ∀ pr ∈ treePagesList site rest, pages.lookup pr.1 = some pr.2 :=
      fun pr hpr => H1 pr (by rw [hsplit]; exact List.mem_append_right _ hpr)
    rw [hsplit, List.map_append] at Hnd Hdis
    obtain ⟨hndc, hndr, hdisj⟩ := List.nodup_append.mp Hnd
    have Hdisc : ∀ x ∈ (treePages site ch.2 (site ++ ch.1.href)).map Prod.fst,
        x ∉ s.visited := fun x hx => Hdis x (List.mem_append_left _ hx)
    have Hdisr : ∀ x ∈ (treePagesList site rest).map Prod.fst, x ∉ s.visited :=
      fun x hx => Hdis x (List.mem_append_right _ hx)
    have hbl : branchLinks (ch :: rest) = ch.1 :: branchLinks rest := rfl
    rw [hbl, mkJobs, jobsEmitsF]
    by_cases h1 : i < startB
    · rw [if_pos h1, if_pos h1]
      obtain ⟨vs, hmem, hvis, hrecs⟩ := runJobs_sim pages site fuel cont startB rest
        (i + 1) s H1r hndr Hdisr
      exact ⟨vs, fun x hx => by
        rw [hsplit, List.map_append]
        exact List.mem_append_right _ (hmem x hx), hvis, hrecs⟩
    · rw [if_neg h1, if_neg h1]
      rw [runJobs]
      obtain ⟨vs1, hmem1, hvis1, hrecs1⟩ := scrape_sim pages site fuel ch.2
        (site ++ ch.1.href) [i]
        (if i = startB ∧ cursorActive cont = true then cont else none) s H1c hndc Hdisc
      have Hdisr1 : ∀ x ∈ (treePagesList site rest).map Prod.fst,
          x ∉ (scrape_branch pages site fuel (site ++ ch.1.href) [i]
            (if i = startB ∧ cursorActive cont = true then cont else none) s).visited := by
        intro x hx hxv
        rw [hvis1] at hxv
        rcases List.mem_append.mp hxv with h | h
        · exact Hdisr x hx h
        · exact hdisj (hmem1 x h) hx
      obtain ⟨vs2, hmem2, hvis2, hrecs2⟩ := runJobs_sim pages site fuel cont startB rest
        (i + 1)
        (scrape_branch pages site fuel (site ++ ch.1.href) [i]
          (if i = startB ∧ cursorActive cont = true then cont else none) s)
        H1r hndr Hdisr1
      refine ⟨vs1 ++ vs2, ?_, ?_, ?_⟩
      · intro x hx
        rw [hsplit, List.map_append, List.mem_append]
        rcases List.mem_append.mp hx with h | h
        · exact Or.inl (hmem1 x h)
        · exact Or.inr (hmem2 x h)
      · rw [hvis2, hvis1, List.append_assoc]
      · rw [hrecs2, hrecs1, List.append_assoc]

theorem collect_sim (pages : List (String × Page)) (stateName : String) (fuel : Nat)
    (cs : List (Link × Tree)) (cont : Option LexPath)
    (H1 : ∀ pr ∈ treePages REGULATIONS_BASE_URL (Tree.branch cs) (stateInitUrl stateName),
      pages.lookup pr.1 = some pr.2)
    (Hnd : ((treePages REGULATIONS_BASE_URL (Tree.branch cs)
      (stateInitUrl stateName)).map Prod.fst).Nodup) :
    (collectRunF pages stateName fuel cont).records =
      collectEmitsF fuel (Tree.branch cs) cont := by
  have hsplit : treePages REGULATIONS_BASE_URL (Tree.branch cs) (stateInitUrl stateName) =
      (stateInitUrl stateName, Page.branch (branchLinks cs)) ::
        treePagesList REGULATIONS_BASE_URL cs := by rw [treePages]
  have hlk : pages.lookup (stateInitUrl stateName) =
      some (Page.branch (branchLinks cs)) :=
    H1 (stateInitUrl stateName, Page.branch (branchLinks cs)) (by rw [hsplit]; simp)
  rw [hsplit, List.map_cons] at Hnd
  have hndl := (List.nodup_cons.mp Hnd).2
  have H1l : ∀ pr ∈ treePagesList REGULATIONS_BASE_URL cs,
      pages.lookup pr.1 = some pr.2 :=
    fun pr hpr => H1 pr (by rw [hsplit]; exact List.mem_cons_of_mem _ hpr)
  have hsub := treePagesList_filter_sublist REGULATIONS_BASE_URL
    (fun c_ => !is_reserved_or_repealed c_.1.text) cs
  have H1f : ∀ pr ∈ treePagesList REGULATIONS_BASE_URL
      (cs.filter (fun c_ => !is_reserved_or_repealed c_.1.text)),
      pages.lookup pr.1 = some pr.2 :=
    fun pr hpr => H1l pr (hsub.mem hpr)
  have hndf : ((treePagesList REGULATIONS_BASE_URL
      (cs.filter (fun c_ => !is_reserved_or_repealed c_.1.text))).map Prod.fst).Nodup :=
    hndl.sublist (hsub.map Prod.fst)
  rw [collectRunF]
  simp only [hlk]
  rw [branchLinks_filter cs]
  obtain ⟨vs, hmem, hvis, hrecs⟩ := runJobs_sim pages REGULATIONS_BASE_URL fuel cont
    (if cursorActive cont = true then (contList cont).headD 0 else 0)
    (cs.filter (fun c_ => !is_reserved_or_repealed c_.1.text)) 0
    { initState with fetchLog := [stateInitUrl stateName] } H1f hndf
    (fun x _ hx => absurd hx (List.not_mem_nil x))
  rw [hrecs]
  rfl

/-- **C1** (resume correctness): on a static hierarchy crawled without fetch or
parse failures — modelled as the page map generated by a tree with duplicate-free
URLs — if a resume cursor `c` recovered from persisted output (so it names a
live leaf: `leadsToLeafTop`) is active at start-up, then the crawl resumed at
`c` emits exactly the records of the full crawl whose `lex_path` is
lexicographically strictly after `c` (element-wise, shorter-prefix-first), in
the same order: the leaf at `c` itself and every leaf before `c` are skipped,
and every leaf after `c` is fully processed and emitted. -/
theorem resume_correctness (pages : List (String × Page)) (stateName : String)
    (cs : List (Link × Tree)) (c : LexPath)
    (H1 : ∀ pr ∈ treePages REGULATIONS_BASE_URL (Tree.branch cs) (stateInitUrl stateName),
      pages.lookup pr.1 = some pr.2)
    (Hnd : ((treePages REGULATIONS_BASE_URL (Tree.branch cs)
      (stateInitUrl stateName)).map Prod.fst).Nodup)
    (hc : cursorActive (some c) = true)
    (hlead : leadsToLeafTop (Tree.branch cs) c) :
    (collect_regulations_for_state pages stateName (some c)).records =
      (collect_regulations_for_state pages stateName none).records.filter
        (fun r => lexLt c r.lex_path) := by
  have hcne : c ≠ [] := by
    intro h
    subst h
    simp [cursorActive] at hc
  rw [collect_regulations_for_state, collect_regulations_for_state]
  rw [collect_sim pages stateName 20 cs (some c) H1 Hnd,
      collect_sim pages stateName 20 cs none H1 Hnd]
  exact collectEmitsF_filter 20 (Tree.branch cs) c hcne hlead

theorem resume_correctness_witness :
    (collect_regulations_for_state
        (treePages REGULATIONS_BASE_URL treeResume (stateInitUrl "montana"))
        "montana" (some [1, 0])).records =
      (collect_regulations_for_state
        (treePages REGULATIONS_BASE_URL treeResume (stateInitUrl "montana"))
        "montana" none).records.filter (fun r => lexLt [1, 0] r.lex_path) :=
  resume_correctness
    (treePages REGULATIONS_BASE_URL treeResume (stateInitUrl "montana")) "montana"
    [(⟨"S0", "/0/"⟩, Tree.branch
        [(⟨"a", "/0/0/"⟩, Tree.leaf "l00"), (⟨"b", "/0/1/"⟩, Tree.leaf "l01")]),
     (⟨"S1", "/1/"⟩, Tree.branch
        [(⟨"a", "/1/0/"⟩, Tree.leaf "l10"), (⟨"b", "/1/1/"⟩, Tree.leaf "l11")]),
     (⟨"S2", "/2/"⟩, Tree.branch [(⟨"a", "/2/0/"⟩, Tree.leaf "l20")])]
    [1, 0] (by decide) (by decide) (by decide)
    ⟨(⟨"S1", "/1/"⟩, Tree.branch
        [(⟨"a", "/1/0/"⟩, Tree.leaf "l10"), (⟨"b", "/1/1/"⟩, Tree.leaf "l11")]),
      rfl,
      ⟨(⟨"a", "/1/0/"⟩, Tree.leaf "l10"), rfl, by decide, by decide, trivial⟩⟩

end RegScraper
